import Mathlib

/-!
# Verification of the `partial-mpt` node store and node codec

A shallow embedding of `src/nodes.rs` and `src/error.rs` of the
`chainbound/partial-mpt` repository: the `NodeData` tagged union
(Leaf / Branch / Extension), its RLP serialization and deserialization,
the keccak-256 content-addressed `Nodes` store, and the factory helpers
`create_leaf` and `create_branch_or_extension`.

Bytes are modelled as `List Nat` with every element `< 256`; machine
integers are `Nat` with explicit `% 2 ^ 64` where overflow matters.
The RLP codec models the parity `rlp` crate as used by the source
(`RlpStream::append` of byte strings, `Rlp::item_count`, `Rlp::at`,
`Rlp::data`).  The `Nibbles` component is not part of the sources,
so it is modelled from the specification (section 4.1); each such
definition is marked in its doc comment.
-/

/-- A byte string: each element is a byte (`< 256`). -/
abbrev Bytes := List Nat

/-- A 32-byte keccak-256 digest (`H256`). -/
abbrev Digest := List Nat

/-! ## Big-endian length bytes (used by RLP long-form headers) -/

/-- Minimal big-endian byte representation, fuel-bounded so that it
reduces by structural recursion (`fuel ≥ n` is always enough). -/
def natToBeBytesAux : Nat → Nat → List Nat
  | _, 0 => []
  | 0, _ + 1 => []
  | fuel + 1, n + 1 => natToBeBytesAux fuel ((n + 1) / 256) ++ [(n + 1) % 256]

/-- Minimal big-endian byte representation of a natural number
(`[]` for `0`). -/
def natToBeBytes (n : Nat) : List Nat :=
  natToBeBytesAux n n

/-- Big-endian interpretation of a list of bytes. -/
def beBytesToNat (l : List Nat) : Nat :=
  l.foldl (fun acc b => acc * 256 + b) 0

/-! ## RLP encoding (parity `rlp` crate, byte-string items only,
as produced by `RlpStream::begin_list` + `append(&BytesMut)`). -/

/-- Header bytes for an RLP payload of length `len` with base marker
`offset` (`0x80` for strings, `0xc0` for lists). -/
def rlpLenHeader (len offset : Nat) : List Nat :=
  if len ≤ 55 then [offset + len]
  else (offset + 55 + (natToBeBytes len).length) :: natToBeBytes len

/-- RLP encoding of a byte string (`RlpStream::append` of a byte slice). -/
def rlpEncodeBytes (bs : List Nat) : List Nat :=
  if bs.length = 1 ∧ bs.headD 0 ≤ 0x7f then bs
  else rlpLenHeader bs.length 0x80 ++ bs

/-- RLP encoding of a list whose items are the given byte strings
(`begin_list n` followed by `n` appends, then `out()`). -/
def rlpWrapList (fields : List (List Nat)) : List Nat :=
  let payload := (fields.map rlpEncodeBytes).flatten
  rlpLenHeader payload.length 0xc0 ++ payload

/-! ## RLP decoding (parity `rlp` crate: `Rlp::new`, `item_count`,
`at`, `data`) -/

/-- Decoder errors of the parity `rlp` crate (the variants this
development can reach). -/
inductive DecoderError
  | RlpIsTooShort
  | RlpExpectedToBeList
  | RlpDataLenWithZeroPrefix
  | RlpListLenWithZeroPrefix
  deriving DecidableEq, Repr

/-- Bounds check used by the RLP header analysis: the item described
by `(header_len, payload_len)` must fit in the buffer. -/
def rlpCheckLen (hv : Nat × Nat) (bs : List Nat) : Except DecoderError (Nat × Nat) :=
  if hv.1 + hv.2 ≤ bs.length then .ok hv else .error .RlpIsTooShort

/-- Header analysis of the RLP item starting at the head of `bs`:
returns `(header_len, payload_len)` and checks the item fits in `bs`
(parity `BasicDecoder::payload_info`). -/
def payloadInfo (bs : List Nat) : Except DecoderError (Nat × Nat) :=
  match bs with
  | [] => .error .RlpIsTooShort
  | b :: rest =>
    if b ≤ 0x7f then rlpCheckLen (0, 1) (b :: rest)
    else if b ≤ 0xb7 then rlpCheckLen (1, b - 0x80) (b :: rest)
    else if b ≤ 0xbf then
      if rest.length < b - 0xb7 then .error .RlpIsTooShort
      else if (rest.take (b - 0xb7)).headD 0 = 0 then .error .RlpDataLenWithZeroPrefix
      else rlpCheckLen (1 + (b - 0xb7), beBytesToNat (rest.take (b - 0xb7))) (b :: rest)
    else if b ≤ 0xf7 then rlpCheckLen (1, b - 0xc0) (b :: rest)
    else
      if rest.length < b - 0xf7 then .error .RlpIsTooShort
      else if (rest.take (b - 0xf7)).headD 0 = 0 then .error .RlpListLenWithZeroPrefix
      else rlpCheckLen (1 + (b - 0xf7), beBytesToNat (rest.take (b - 0xf7))) (b :: rest)

/-- Whether the buffer holds an RLP list (parity `Rlp::is_list`). -/
def rlpIsList (bs : List Nat) : Bool :=
  match bs with
  | b :: _ => 0xc0 ≤ b
  | [] => false

/-- Split an RLP list payload into its top-level items (each item kept
with its header); `fuel` bounds the recursion and is supplied as the
payload length.  Models parity's item iteration. -/
def splitItems : List Nat → Nat → Except DecoderError (List (List Nat))
  | [], _ => .ok []
  | _ :: _, 0 => .error .RlpIsTooShort
  | b :: rest, fuel + 1 =>
    match payloadInfo (b :: rest) with
    | .error e => .error e
    | .ok hv =>
      match splitItems ((b :: rest).drop (hv.1 + hv.2)) fuel with
      | .error e => .error e
      | .ok items => .ok ((b :: rest).take (hv.1 + hv.2) :: items)

/-- The top-level items of an RLP list (with their headers). -/
def rlpItems (raw : List Nat) : Except DecoderError (List (List Nat)) :=
  if rlpIsList raw then
    match payloadInfo raw with
    | .error e => .error e
    | .ok hv =>
      splitItems ((raw.drop hv.1).take hv.2) ((raw.drop hv.1).take hv.2).length
  else .error .RlpExpectedToBeList

/-- `Rlp::item_count`. -/
def rlpItemCount (raw : List Nat) : Except DecoderError Nat :=
  (rlpItems raw).map List.length

/-- `Rlp::at(i)`: the `i`-th item of the list, with its header. -/
def rlpAt (raw : List Nat) (i : Nat) : Except DecoderError (List Nat) :=
  match rlpItems raw with
  | .error e => .error e
  | .ok items =>
    match items.get? i with
    | some it => .ok it
    | none => .error .RlpIsTooShort

/-- `Rlp::data()`: the payload of an item. -/
def rlpData (item : List Nat) : Except DecoderError (List Nat) :=
  match payloadInfo item with
  | .error e => .error e
  | .ok hv => .ok ((item.drop hv.1).take hv.2)

/-- `rlp.at(i)?.data()?` as used throughout `from_raw_rlp`. -/
def rlpAtData (raw : List Nat) (i : Nat) : Except DecoderError (List Nat) :=
  match rlpAt raw i with
  | .error e => .error e
  | .ok it => rlpData it

/-! ## Keccak-256 (`ethers::utils::keccak256`) -/

/-- Left-rotate a 64-bit lane. -/
def rotl64 (x n : Nat) : Nat :=
  ((x <<< (n % 64)) ||| (x >>> (64 - n % 64))) % 2 ^ 64

/-- Keccak round constants. -/
def keccakRC : List Nat :=
  [0x0000000000000001, 0x0000000000008082, 0x800000000000808a, 0x8000000080008000,
   0x000000000000808b, 0x0000000080000001, 0x8000000080008081, 0x8000000000008009,
   0x000000000000008a, 0x0000000000000088, 0x0000000080008009, 0x000000008000000a,
   0x000000008000808b, 0x800000000000008b, 0x8000000000008089, 0x8000000000008003,
   0x8000000000008002, 0x8000000000000080, 0x000000000000800a, 0x800000008000000a,
   0x8000000080008081, 0x8000000000008080, 0x0000000080000001, 0x8000000080008008]

/-- Keccak rotation offsets, indexed by lane `x + 5 * y`: offset
`(t+1)(t+2)/2 mod 64` is assigned along the π walk
`(x, y) ↦ (y, (2x+3y) mod 5)` starting from lane `(1, 0)`. -/
def keccakRot : List Nat :=
  ((List.range 24).foldl
    (fun st t =>
      (st.1.set (st.2.1 + 5 * st.2.2) ((t + 1) * (t + 2) / 2 % 64),
        (st.2.2, (2 * st.2.1 + 3 * st.2.2) % 5)))
    (List.replicate 25 0, (1, 0))).1

/-- θ step. -/
def keccakTheta (st : List Nat) : List Nat :=
  let c := (List.range 5).map fun x =>
    st.getD x 0 ^^^ st.getD (x + 5) 0 ^^^ st.getD (x + 10) 0 ^^^
      st.getD (x + 15) 0 ^^^ st.getD (x + 20) 0
  let d := (List.range 5).map fun x =>
    c.getD ((x + 4) % 5) 0 ^^^ rotl64 (c.getD ((x + 1) % 5) 0) 1
  (List.range 25).map fun i => st.getD i 0 ^^^ d.getD (i % 5) 0

/-- ρ and π steps combined. -/
def keccakRhoPi (st : List Nat) : List Nat :=
  (List.range 25).map fun j =>
    let bigX := j % 5
    let bigY := j / 5
    let x := 3 * ((bigY + 2 * bigX) % 5) % 5
    let y := bigX
    rotl64 (st.getD (x + 5 * y) 0) (keccakRot.getD (x + 5 * y) 0)

/-- χ step. -/
def keccakChi (st : List Nat) : List Nat :=
  (List.range 25).map fun j =>
    let x := j % 5
    let y := j / 5
    st.getD (x + 5 * y) 0 ^^^
      ((st.getD ((x + 1) % 5 + 5 * y) 0 ^^^ (2 ^ 64 - 1)) &&&
        st.getD ((x + 2) % 5 + 5 * y) 0)

/-- One keccak-f round (θ, ρ, π, χ, then ι with round constant `rc`). -/
def keccakRound (st : List Nat) (rc : Nat) : List Nat :=
  let st2 := keccakChi (keccakRhoPi (keccakTheta st))
  st2.set 0 (st2.getD 0 0 ^^^ rc)

/-- The keccak-f[1600] permutation (24 rounds). -/
def keccakF (st : List Nat) : List Nat :=
  keccakRC.foldl keccakRound st

/-- A 64-bit lane from (at most) 8 little-endian bytes. -/
def laneOfBytes (bs : List Nat) : Nat :=
  bs.foldr (fun b acc => b + 256 * acc) 0

/-- Absorb one 136-byte block into the state. -/
def absorbBlock (st : List Nat) (block : List Nat) : List Nat :=
  let lanes := (List.range 17).map fun i => laneOfBytes ((block.drop (8 * i)).take 8)
  keccakF ((List.range 25).map fun i =>
    if i < 17 then st.getD i 0 ^^^ lanes.getD i 0 else st.getD i 0)

/-- Keccak (pre-NIST) multi-rate padding for rate 136. -/
def keccakPad (msg : List Nat) : List Nat :=
  let padLen := 136 - msg.length % 136
  if padLen = 1 then msg ++ [0x81]
  else msg ++ [0x01] ++ List.replicate (padLen - 2) 0 ++ [0x80]

/-- Split a (padded) message into 136-byte blocks; `fuel` bounds the
recursion and is supplied as the message length. -/
def toBlocks : Nat → List Nat → List (List Nat)
  | 0, _ => []
  | _ + 1, [] => []
  | fuel + 1, l => l.take 136 :: toBlocks fuel (l.drop 136)

/-- Keccak-256 of a byte string, producing a 32-byte digest
(`ethers::utils::keccak256`). -/
def keccak256 (msg : List Nat) : List Nat :=
  let padded := keccakPad msg
  let st := (toBlocks padded.length padded).foldl absorbBlock (List.replicate 25 0)
  (List.range 32).map fun i => (st.getD (i / 8) 0 >>> (8 * (i % 8))) % 256

-- Decidable equality for `Except` results, used to evaluate the codec
-- on concrete inputs.
deriving instance DecidableEq for Except

/-! ## Errors (`src/error.rs`) -/

/-- The library error type (`src/error.rs`): a wrapped RLP decoder
error (the `From<DecoderError>` impl used by `?`), or an internal
error carrying a static message. -/
inductive Error
  | RlpDecoderError (e : DecoderError)
  | InternalError (msg : String)
  deriving DecidableEq, Repr

/-- The `?` operator on an `rlp` crate result inside a function
returning `Result<_, Error>`: converts via `From<DecoderError>`. -/
def liftDec {α : Type} : Except DecoderError α → Except Error α
  | .ok a => .ok a
  | .error e => .error (Error.RlpDecoderError e)

/-! ## Nibbles (modelled from the spec, section 4.1 — `src/nibbles.rs`
is not among the provided sources) -/

/-- A nibble path: an ordered sequence of 4-bit values. -/
abbrev Nibbles := List Nat

namespace Nibbles

/-- Modelled from the spec: `from_raw_path(bytes)` splits each byte into
`[hi, lo]` nibbles; always even length. -/
def from_raw_path (bs : Bytes) : Nibbles :=
  bs.flatMap fun b => [b / 16, b % 16]

/-- Pack an even-length nibble sequence into bytes (two nibbles per
byte, high first). -/
def packPairs : List Nat → List Nat
  | a :: b :: t => (16 * a + b) :: packPairs t
  | _ => []

/-- Modelled from the spec: `encode_path(is_terminator)` prepends the
flag nibble `(terminator <<1) ||| odd_length` and pads with one zero
nibble if the path length is even, then packs nibbles into bytes
(hex-prefix encoding, Yellow Paper Appendix C). -/
def encode_path (n : Nibbles) (is_terminator : Bool) : Bytes :=
  let t := if is_terminator then 1 else 0
  if n.length % 2 = 1 then packPairs ((2 * t + 1) :: n)
  else packPairs ((2 * t) :: 0 :: n)

/-- Modelled from the spec: `from_encoded_path` decodes hex-prefix.  The
first nibble `f` encodes `terminator = (f >>> 1) &&& 1` and
`odd = f &&& 1`; if odd the second nibble is data, otherwise the first
byte is discarded whole.  Returns `(nibbles, terminator)`; an empty
input is a decoding error. -/
def from_encoded_path_with_terminator (bs : Bytes) : Except Error (Nibbles × Bool) :=
  match bs with
  | [] => .error (.InternalError "invalid encoded path")
  | _ =>
    let nibbles := from_raw_path bs
    let f := nibbles.headD 0
    let terminator := (f >>> 1) &&& 1 = 1
    let data := if f &&& 1 = 1 then nibbles.drop 1 else nibbles.drop 2
    .ok (data, terminator)

/-- Modelled from the spec: `intersect(other)` is the longest common
prefix as new Nibbles; must not fail. -/
def intersectAux : List Nat → List Nat → List Nat
  | a :: as_, b :: bs => if a = b then a :: intersectAux as_ bs else []
  | _, _ => []

/-- Modelled from the spec: `intersect` wrapped in the `Result` the
call sites unwrap with `?`. -/
def intersect (a b : Nibbles) : Except Error Nibbles :=
  .ok (intersectAux a b)

/-- Modelled from the spec: `slice(offset)` is the suffix from
`offset`; error if `offset > len`. -/
def slice (n : Nibbles) (offset : Nat) : Except Error Nibbles :=
  if n.length < offset then .error (.InternalError "slice offset out of range")
  else .ok (n.drop offset)

/-- Modelled from the spec: `first_nibble()` peeks the value at index 0
(the spec makes it an error on an empty path; the call sites only apply
it to non-empty paths, and the model totalizes it with 0). -/
def first_nibble (n : Nibbles) : Nat :=
  n.headD 0

end Nibbles

/-! ## NodeData (`src/nodes.rs`) -/

/-- A trie node (`enum NodeData`): `Leaf { key, value }`,
`Branch([Option<H256>; 17])` (modelled as a list of 17 option slots),
or `Extension { key, node }`. -/
inductive NodeData
  | Leaf (key : Nibbles) (value : Bytes)
  | Branch (arr : List (Option Digest))
  | Extension (key : Nibbles) (node : Digest)
  deriving DecidableEq, Repr

namespace NodeData

/-- `NodeData::to_raw_rlp`: RLP-serialize the node.  Leaf and Extension
emit the 2-list of the compact-encoded path (terminator `true` for
Leaf, `false` for Extension) and the value / child digest; Branch emits
the 17-list with empty bytes for absent slots.  The `Result` never
carries an error. -/
def to_raw_rlp (n : NodeData) : Except Error Bytes :=
  let out : List Nat :=
    match n with
    | .Leaf key value =>
      rlpWrapList [Nibbles.encode_path key true, value]
    | .Branch arr =>
      rlpWrapList (arr.map fun entry =>
        match entry with
        | some h => h
        | none => [])
    | .Extension key node =>
      rlpWrapList [Nibbles.encode_path key false, node]
  .ok out

/-- `NodeData::hash`: `keccak256(to_raw_rlp()?)`. -/
def hash (n : NodeData) : Except Error Digest :=
  match n.to_raw_rlp with
  | .error e => .error e
  | .ok b => .ok (keccak256 b)

/-- `NodeData::is_leaf`. -/
def is_leaf : NodeData → Bool
  | .Leaf _ _ => true
  | _ => false

/-- `NodeData::set_value_on_leaf(new_value)`: replaces the value of a
Leaf; on any other variant returns an internal error and leaves the
node unchanged (the Rust method takes `&mut self` and returns
`Result<()>`; it is modelled as state passing). -/
def set_value_on_leaf (n : NodeData) (new_value : Bytes) : Except Error Unit × NodeData :=
  match n with
  | .Leaf key _ => (.ok (), .Leaf key new_value)
  | _ => (.error (.InternalError "set_value_on_leaf is only valid on leaf nodes"), n)

/-- `NodeData::from_raw_rlp`: RLP-decode a node.  Two items: compact
path plus value (Leaf, terminator set) or 32-byte child digest
(Extension); seventeen items: Branch with 32-byte or empty slots; any
other item count is an error. -/
def from_raw_rlp (raw : Bytes) : Except Error NodeData :=
  match liftDec (rlpItemCount raw) with
  | .error e => .error e
  | .ok num_items =>
    match num_items with
    | 2 =>
      match liftDec (rlpAtData raw 0) with
      | .error e => .error e
      | .ok val_0 =>
        match liftDec (rlpAtData raw 1) with
        | .error e => .error e
        | .ok val_1 =>
          match Nibbles.from_encoded_path_with_terminator val_0 with
          | .error e => .error e
          | .ok (key, terminator) =>
            if terminator then .ok (.Leaf key val_1)
            else
              match liftDec (rlpAtData raw 1) with
              | .error e => .error e
              | .ok hashBytes =>
                if hashBytes.length ≠ 32 then
                  .error (.InternalError "invalid hash length in Extension")
                else .ok (.Extension key hashBytes)
    | 17 =>
      match (List.range 17).mapM (fun i =>
        match liftDec (rlpAtData raw i) with
        | .error e => (.error e : Except Error (Option Digest))
        | .ok value =>
          if value.length = 32 then .ok (some value)
          else if value.length = 0 then .ok none
          else .error (.InternalError "invalid hash length in Extension")) with
      | .error e => .error e
      | .ok arr => .ok (.Branch arr)
    | _ => .error (.InternalError "Unknown num_items")

end NodeData

/-! ## Nodes store (`src/nodes.rs`, `struct Nodes(HashMap<H256, NodeData>)`) -/

/-- The content-addressed node store, modelled as an association list
from digest to node (insertion replaces in place, like
`HashMap::insert`). -/
abbrev Nodes := List (Digest × NodeData)

/-- `HashMap::insert`: returns the previously stored value (if any) and
the updated map. -/
def hmInsert (k : Digest) (v : NodeData) : Nodes → Option NodeData × Nodes
  | [] => (none, [(k, v)])
  | (k', v') :: t =>
    if k' = k then (some v', (k, v) :: t)
    else
      let r := hmInsert k v t
      (r.1, (k', v') :: r.2)

/-- `HashMap::get`. -/
def hmGet (k : Digest) : Nodes → Option NodeData
  | [] => none
  | (k', v') :: t => if k' = k then some v' else hmGet k t

/-- `HashMap::remove`: returns the removed value (if any) and the
updated map. -/
def hmRemove (k : Digest) : Nodes → Option NodeData × Nodes
  | [] => (none, [])
  | (k', v') :: t =>
    if k' = k then (some v', t)
    else
      let r := hmRemove k t
      (r.1, (k', v') :: r.2)

namespace Nodes

/-- `Nodes::new`. -/
def new : Nodes := []

/-- `Nodes::get`. -/
def get (s : Nodes) (h : Digest) : Option NodeData :=
  hmGet h s

/-- `Nodes::insert`: compute the digest of the node, store the node
under it, and return the digest together with the previously stored
value. -/
def insert (s : Nodes) (node_data : NodeData) : Except Error ((Digest × Option NodeData) × Nodes) :=
  match node_data.hash with
  | .error e => .error e
  | .ok key =>
    let r := hmInsert key node_data s
    .ok ((key, r.1), r.2)

/-- `Nodes::remove`. -/
def remove (s : Nodes) (h : Digest) : Option NodeData × Nodes :=
  hmRemove h s

/-- `Nodes::create_leaf`: insert `Leaf { key, value }` and return its
digest. -/
def create_leaf (s : Nodes) (key : Nibbles) (value : Bytes) : Except Error (Digest × Nodes) :=
  match insert s (.Leaf key value) with
  | .error e => .error e
  | .ok ((hash_leaf, _), s') => .ok (hash_leaf, s')

/-- `Nodes::create_branch_or_extension`: split two keys at their
longest common prefix, create a leaf for each suffix, build a Branch
pointing at them from the suffixes' first nibbles, and either return
the Branch (empty prefix) or insert it and return an Extension keyed by
the prefix. -/
def create_branch_or_extension (s : Nodes) (key_a : Nibbles) (value_a : Bytes)
    (key_b : Nibbles) (value_b : Bytes) : Except Error (NodeData × Nodes) :=
  match Nibbles.intersect key_a key_b with
  | .error e => .error e
  | .ok intersection =>
    match Nibbles.slice key_a intersection.length with
    | .error e => .error e
    | .ok key_a_prime =>
      match Nibbles.slice key_b intersection.length with
      | .error e => .error e
      | .ok key_b_prime =>
        let nibble_a := Nibbles.first_nibble key_a_prime
        let nibble_b := Nibbles.first_nibble key_b_prime
        match create_leaf s key_a_prime value_a with
        | .error e => .error e
        | .ok (hash_a, s) =>
          match create_leaf s key_b_prime value_b with
          | .error e => .error e
          | .ok (hash_b, s) =>
            let branch_node_arr :=
              ((List.replicate 17 (none : Option Digest)).set nibble_a
                (some hash_a)).set nibble_b (some hash_b)
            let branch := NodeData.Branch branch_node_arr
            if intersection.length > 0 then
              match insert s branch with
              | .error e => .error e
              | .ok ((branch_hash, _), s) =>
                .ok (.Extension intersection branch_hash, s)
            else .ok (branch, s)

end Nodes

/-! ## Well-formedness and the store invariant -/

/-- A well-formed digest: exactly 32 bytes. -/
abbrev wfDigest (d : Digest) : Prop :=
  d.length = 32 ∧ ∀ b ∈ d, b < 256

/-- A well-formed branch slot: absent, or a well-formed digest. -/
def wfSlot : Option Digest → Prop
  | some d => wfDigest d
  | none => True

instance (o : Option Digest) : Decidable (wfSlot o) :=
  match o with
  | some d => inferInstanceAs (Decidable (wfDigest d))
  | none => inferInstanceAs (Decidable True)

/-- A well-formed path: nibble values below 16, length bounded by the
machine word the Rust code stores lengths in. -/
abbrev wfPath (p : Nibbles) : Prop :=
  (∀ x ∈ p, x < 16) ∧ p.length < 2 ^ 32

/-- A well-formed byte string: byte values below 256, bounded length. -/
abbrev wfBytes (bs : Bytes) : Prop :=
  (∀ b ∈ bs, b < 256) ∧ bs.length < 2 ^ 32

/-- A well-formed `NodeData` value: the representation invariants the
Rust types enforce (`Nibbles` holds 4-bit values, `Bytes` holds bytes,
`H256` is 32 bytes, a Branch has 17 slots). -/
def NodeData.wf : NodeData → Prop
  | .Leaf key value => wfPath key ∧ wfBytes value
  | .Branch arr => arr.length = 17 ∧ ∀ o ∈ arr, wfSlot o
  | .Extension key node => wfPath key ∧ wfDigest node

instance (n : NodeData) : Decidable n.wf :=
  match n with
  | .Leaf key value => inferInstanceAs (Decidable (wfPath key ∧ wfBytes value))
  | .Branch arr => inferInstanceAs (Decidable (arr.length = 17 ∧ ∀ o ∈ arr, wfSlot o))
  | .Extension key node => inferInstanceAs (Decidable (wfPath key ∧ wfDigest node))

/-- The content-addressing invariant (spec I1): every stored entry's
key is the keccak digest of its value's RLP serialization. -/
def nodesInvariant (s : Nodes) : Prop :=
  ∀ p ∈ s, NodeData.hash p.2 = .ok p.1

/-- The stores reachable by the public store-building operations of
`Nodes`: `new`, `insert`, `create_leaf`, `create_branch_or_extension`
and `remove`. -/
inductive ReachableNodes : Nodes → Prop
  | new : ReachableNodes Nodes.new
  | insert (s : Nodes) (n : NodeData) (r : Digest × Option NodeData) (s' : Nodes) :
      ReachableNodes s → Nodes.insert s n = .ok (r, s') → ReachableNodes s'
  | create_leaf (s : Nodes) (key : Nibbles) (value : Bytes) (d : Digest) (s' : Nodes) :
      ReachableNodes s → Nodes.create_leaf s key value = .ok (d, s') → ReachableNodes s'
  | create_branch_or_extension (s : Nodes) (key_a : Nibbles) (value_a : Bytes)
      (key_b : Nibbles) (value_b : Bytes) (r : NodeData) (s' : Nodes) :
      ReachableNodes s →
      Nodes.create_branch_or_extension s key_a value_a key_b value_b = .ok (r, s') →
      ReachableNodes s'
  | remove (s : Nodes) (h : Digest) :
      ReachableNodes s → ReachableNodes (Nodes.remove s h).2

/-! ## Basic lemmas about the store operations -/

/-- `to_raw_rlp` never returns an error. -/
theorem NodeData.to_raw_rlp_ok (n : NodeData) : ∃ b, n.to_raw_rlp = .ok b := by
  cases n <;> exact ⟨_, rfl⟩

/-- `hash` is keccak-256 of the serialization. -/
theorem NodeData.hash_eq_keccak (n : NodeData) (b : Bytes) (hb : n.to_raw_rlp = .ok b) :
    n.hash = .ok (keccak256 b) := by
  simp [NodeData.hash, hb]

/-- The first component of `hmInsert` is the previously stored value. -/
theorem hmInsert_fst (k : Digest) (v : NodeData) :
    ∀ l : Nodes, (hmInsert k v l).1 = hmGet k l := by
  intro l
  induction l with
  | nil => rfl
  | cons p t ih =>
    cases p with
    | mk k' v' =>
      by_cases h : k' = k <;> simp [hmInsert, hmGet, h, ih]

/-- After `hmInsert k v`, looking up `k` yields `v`. -/
theorem hmGet_hmInsert_self (k : Digest) (v : NodeData) :
    ∀ l : Nodes, hmGet k (hmInsert k v l).2 = some v := by
  intro l
  induction l with
  | nil => simp [hmInsert, hmGet]
  | cons p t ih =>
    cases p with
    | mk k' v' =>
      by_cases h : k' = k <;> simp [hmInsert, hmGet, h, ih]

/-- Re-inserting the same binding is the identity on the map and
reports the binding as the prior value. -/
theorem hmInsert_idem (k : Digest) (v : NodeData) :
    ∀ l : Nodes, hmInsert k v (hmInsert k v l).2 = (some v, (hmInsert k v l).2) := by
  intro l
  induction l with
  | nil => simp [hmInsert]
  | cons p t ih =>
    cases p with
    | mk k' v' =>
      by_cases h : k' = k
      · simp [hmInsert, h]
      · simp [hmInsert, h, ih]

/-- Every entry of an updated map is the new binding or an old entry. -/
theorem hmInsert_mem {p : Digest × NodeData} {k : Digest} {v : NodeData} :
    ∀ {l : Nodes}, p ∈ (hmInsert k v l).2 → p = (k, v) ∨ p ∈ l := by
  intro l
  induction l with
  | nil => simp [hmInsert]
  | cons q t ih =>
    cases q with
    | mk k' v' =>
      by_cases h : k' = k
      · simp [hmInsert, h]
        intro hc
        rcases hc with hc | hc
        · exact Or.inl hc
        · exact Or.inr (Or.inr hc)
      · simp [hmInsert, h]
        intro hc
        rcases hc with hc | hc
        · exact Or.inr (Or.inl hc)
        · rcases ih hc with hd | hd
          · exact Or.inl hd
          · exact Or.inr (Or.inr hd)

/-- The new binding is present after `hmInsert`. -/
theorem hmInsert_mem_self (k : Digest) (v : NodeData) :
    ∀ l : Nodes, (k, v) ∈ (hmInsert k v l).2 := by
  intro l
  induction l with
  | nil => simp [hmInsert]
  | cons q t ih =>
    cases q with
    | mk k' v' =>
      by_cases h : k' = k <;> simp [hmInsert, h, ih]

/-- Removal only drops entries. -/
theorem hmRemove_mem {p : Digest × NodeData} {k : Digest} :
    ∀ {l : Nodes}, p ∈ (hmRemove k l).2 → p ∈ l := by
  intro l
  induction l with
  | nil => simp [hmRemove]
  | cons q t ih =>
    cases q with
    | mk k' v' =>
      by_cases h : k' = k
      · simp [hmRemove, h]
        intro hc
        exact Or.inr hc
      · simp [hmRemove, h]
        intro hc
        rcases hc with hc | hc
        · exact Or.inl hc
        · exact Or.inr (ih hc)

/-- `insert` preserves the content-addressing invariant. -/
theorem insert_preserves_invariant {s : Nodes} {n : NodeData}
    {r : Digest × Option NodeData} {s' : Nodes} (hinv : nodesInvariant s)
    (h : Nodes.insert s n = .ok (r, s')) : nodesInvariant s' := by
  obtain ⟨b, hb⟩ := n.to_raw_rlp_ok
  have hh := NodeData.hash_eq_keccak n b hb
  unfold Nodes.insert at h
  rw [hh] at h
  injection h with h
  have hs' : s' = (hmInsert (keccak256 b) n s).2 := by
    have := congrArg Prod.snd h
    simpa using this.symm
  subst hs'
  intro p hp
  rcases hmInsert_mem hp with hd | hd
  · subst hd
    exact hh
  · exact hinv p hd

/-- `create_leaf` preserves the content-addressing invariant. -/
theorem create_leaf_preserves_invariant {s : Nodes} {key : Nibbles} {value : Bytes}
    {d : Digest} {s' : Nodes} (hinv : nodesInvariant s)
    (h : Nodes.create_leaf s key value = .ok (d, s')) : nodesInvariant s' := by
  unfold Nodes.create_leaf at h
  split at h
  · exact Except.noConfusion h
  · next hl old s2 hr =>
    injection h with h
    have hs' : s' = s2 := by
      have := congrArg Prod.snd h
      simpa using this.symm
    subst hs'
    exact insert_preserves_invariant hinv hr

/-- `create_branch_or_extension` preserves the content-addressing
invariant. -/
theorem cboe_preserves_invariant {s : Nodes} {ka : Nibbles} {va : Bytes}
    {kb : Nibbles} {vb : Bytes} {r : NodeData} {s' : Nodes}
    (hinv : nodesInvariant s)
    (h : Nodes.create_branch_or_extension s ka va kb vb = .ok (r, s')) :
    nodesInvariant s' := by
  unfold Nodes.create_branch_or_extension at h
  split at h
  · exact Except.noConfusion h
  · split at h
    · exact Except.noConfusion h
    · split at h
      · exact Except.noConfusion h
      · split at h
        · exact Except.noConfusion h
        · next ha1 s1 hra =>
          have hinv1 : nodesInvariant s1 := create_leaf_preserves_invariant hinv hra
          split at h
          · exact Except.noConfusion h
          · next hb1 s2 hrb =>
            have hinv2 : nodesInvariant s2 := create_leaf_preserves_invariant hinv1 hrb
            dsimp only at h
            split at h
            · split at h
              · exact Except.noConfusion h
              · next bh old s3 hrc =>
                have hinv3 : nodesInvariant s3 := insert_preserves_invariant hinv2 hrc
                injection h with h
                have hs' : s' = s3 := by
                  have := congrArg Prod.snd h
                  simpa using this.symm
                subst hs'
                exact hinv3
            · injection h with h
              have hs' : s' = s2 := by
                have := congrArg Prod.snd h
                simpa using this.symm
              subst hs'
              exact hinv2

/-- `remove` preserves the content-addressing invariant. -/
theorem remove_preserves_invariant {s : Nodes} {d : Digest}
    (hinv : nodesInvariant s) : nodesInvariant (Nodes.remove s d).2 := by
  intro p hp
  exact hinv p (hmRemove_mem hp)

/-! ## Claim theorems: store operations -/

/-- C3: every stored entry of a store reachable by `new`, `insert`,
`create_leaf`, `create_branch_or_extension` and `remove` satisfies
`digest = keccak256(node.to_raw_rlp())`. -/
theorem c3_stored_entries_content_addressed (s : Nodes) (h : ReachableNodes s) :
    nodesInvariant s := by
  induction h with
  | new => intro p hp; simp [Nodes.new] at hp
  | insert s n r s' _ heq ih => exact insert_preserves_invariant ih heq
  | create_leaf s key value d s' _ heq ih => exact create_leaf_preserves_invariant ih heq
  | create_branch_or_extension s ka va kb vb r s' _ heq ih =>
    exact cboe_preserves_invariant ih heq
  | remove s d _ ih => exact remove_preserves_invariant ih

set_option maxRecDepth 2000000

/-- Witness for C3: the store obtained by inserting the leaf
`Leaf{key: [2, 9], value: 0x08}` into a fresh store is reachable and
satisfies the content-addressing invariant (its key is the literal
keccak digest of `0xc4822029 08`). -/
theorem c3_stored_entries_content_addressed_witness :
    ReachableNodes
      [([83, 38, 86, 37, 53, 25, 198, 238, 28, 154, 88, 55, 66, 37, 146, 61, 85,
         68, 150, 40, 82, 102, 241, 158, 196, 156, 150, 120, 48, 186, 30, 243],
        NodeData.Leaf [2, 9] [8])] ∧
    nodesInvariant
      [([83, 38, 86, 37, 53, 25, 198, 238, 28, 154, 88, 55, 66, 37, 146, 61, 85,
         68, 150, 40, 82, 102, 241, 158, 196, 156, 150, 120, 48, 186, 30, 243],
        NodeData.Leaf [2, 9] [8])] :=
  have hr : ReachableNodes
      [([83, 38, 86, 37, 53, 25, 198, 238, 28, 154, 88, 55, 66, 37, 146, 61, 85,
         68, 150, 40, 82, 102, 241, 158, 196, 156, 150, 120, 48, 186, 30, 243],
        NodeData.Leaf [2, 9] [8])] :=
    ReachableNodes.insert Nodes.new (NodeData.Leaf [2, 9] [8])
      ([83, 38, 86, 37, 53, 25, 198, 238, 28, 154, 88, 55, 66, 37, 146, 61, 85,
        68, 150, 40, 82, 102, 241, 158, 196, 156, 150, 120, 48, 186, 30, 243], none)
      _ ReachableNodes.new (by decide)
  ⟨hr, c3_stored_entries_content_addressed _ hr⟩

/-- C4: `insert` stores the node under its digest and returns the
digest together with the prior value under that digest; inserting the
same node twice is idempotent, and the second insert reports that very
node as the prior value. -/
theorem c4_insert_stores_and_idempotent (s : Nodes) (n : NodeData) :
    ∃ d s₁, Nodes.insert s n = .ok ((d, hmGet d s), s₁) ∧
      Nodes.get s₁ d = some n ∧
      Nodes.insert s₁ n = .ok ((d, some n), s₁) := by
  obtain ⟨b, hb⟩ := n.to_raw_rlp_ok
  have hh := NodeData.hash_eq_keccak n b hb
  refine ⟨keccak256 b, (hmInsert (keccak256 b) n s).2, ?_, ?_, ?_⟩
  · simp [Nodes.insert, hh, hmInsert_fst]
  · simp [Nodes.get, hmGet_hmInsert_self]
  · simp [Nodes.insert, hh, hmInsert_idem]

/-- C9: `to_raw_rlp` and `hash` never return an error, and `insert`
and `create_leaf` always succeed (so no error path can leave the store
partially modified). -/
theorem c9_serialization_and_insert_total :
    (∀ n : NodeData, ∃ b, NodeData.to_raw_rlp n = .ok b) ∧
    (∀ n : NodeData, ∃ d, NodeData.hash n = .ok d) ∧
    (∀ (s : Nodes) (n : NodeData), ∃ r s', Nodes.insert s n = .ok (r, s')) ∧
    (∀ (s : Nodes) (key : Nibbles) (value : Bytes),
      ∃ d s', Nodes.create_leaf s key value = .ok (d, s')) := by
  refine ⟨NodeData.to_raw_rlp_ok, fun n => ?_, fun s n => ?_, fun s k v => ?_⟩
  · obtain ⟨b, hb⟩ := n.to_raw_rlp_ok
    exact ⟨_, NodeData.hash_eq_keccak n b hb⟩
  · obtain ⟨b, hb⟩ := n.to_raw_rlp_ok
    have hh := NodeData.hash_eq_keccak n b hb
    exact ⟨(keccak256 b, (hmInsert (keccak256 b) n s).1),
      (hmInsert (keccak256 b) n s).2, by simp [Nodes.insert, hh]⟩
  · obtain ⟨b, hb⟩ := (NodeData.Leaf k v).to_raw_rlp_ok
    have hh := NodeData.hash_eq_keccak _ b hb
    exact ⟨keccak256 b, (hmInsert (keccak256 b) (NodeData.Leaf k v) s).2,
      by simp [Nodes.create_leaf, Nodes.insert, hh]⟩

/-- C10: `set_value_on_leaf` succeeds exactly on a Leaf, replacing the
value and keeping the key; on Branch and Extension it returns the
internal error and leaves the node unchanged. -/
theorem c10_set_value_on_leaf_exact :
    (∀ (n : NodeData) (nv : Bytes),
      (NodeData.set_value_on_leaf n nv).1 = .ok () ↔ n.is_leaf = true) ∧
    (∀ (key : Nibbles) (value nv : Bytes),
      NodeData.set_value_on_leaf (.Leaf key value) nv = (.ok (), .Leaf key nv)) ∧
    (∀ (arr : List (Option Digest)) (nv : Bytes),
      NodeData.set_value_on_leaf (.Branch arr) nv =
        (.error (.InternalError "set_value_on_leaf is only valid on leaf nodes"),
          .Branch arr)) ∧
    (∀ (key : Nibbles) (node : Digest) (nv : Bytes),
      NodeData.set_value_on_leaf (.Extension key node) nv =
        (.error (.InternalError "set_value_on_leaf is only valid on leaf nodes"),
          .Extension key node)) := by
  refine ⟨fun n nv => ?_, fun _ _ _ => rfl, fun _ _ => rfl, fun _ _ _ => rfl⟩
  cases n <;> simp [NodeData.set_value_on_leaf, NodeData.is_leaf]

/-! ## Claim theorems: concrete evaluations -/

/-- C8: decoding the 36-byte leaf RLP yields the leaf whose key is the
nibble expansion of the 32-byte raw path and whose value is `0x08`;
re-encoding returns the identical bytes; and after
`set_value_on_leaf(0x01)` the encoding equals the same bytes with the
last byte `0x08` replaced by `0x01`. -/
theorem c8_leaf_decode_encode_mutate :
    NodeData.from_raw_rlp
      [0xe3, 0xa1, 0x20, 0x29, 0x0d, 0xec, 0xd9, 0x54, 0x8b, 0x62, 0xa8, 0xd6,
       0x03, 0x45, 0xa9, 0x88, 0x38, 0x6f, 0xc8, 0x4b, 0xa6, 0xbc, 0x95, 0x48,
       0x40, 0x08, 0xf6, 0x36, 0x2f, 0x93, 0x16, 0x0e, 0xf3, 0xe5, 0x63, 0x08] =
      .ok (.Leaf
        (Nibbles.from_raw_path
          [0x29, 0x0d, 0xec, 0xd9, 0x54, 0x8b, 0x62, 0xa8, 0xd6, 0x03, 0x45,
           0xa9, 0x88, 0x38, 0x6f, 0xc8, 0x4b, 0xa6, 0xbc, 0x95, 0x48, 0x40,
           0x08, 0xf6, 0x36, 0x2f, 0x93, 0x16, 0x0e, 0xf3, 0xe5, 0x63])
        [0x08]) ∧
    NodeData.to_raw_rlp
      (.Leaf
        (Nibbles.from_raw_path
          [0x29, 0x0d, 0xec, 0xd9, 0x54, 0x8b, 0x62, 0xa8, 0xd6, 0x03, 0x45,
           0xa9, 0x88, 0x38, 0x6f, 0xc8, 0x4b, 0xa6, 0xbc, 0x95, 0x48, 0x40,
           0x08, 0xf6, 0x36, 0x2f, 0x93, 0x16, 0x0e, 0xf3, 0xe5, 0x63])
        [0x08]) =
      .ok
      [0xe3, 0xa1, 0x20, 0x29, 0x0d, 0xec, 0xd9, 0x54, 0x8b, 0x62, 0xa8, 0xd6,
       0x03, 0x45, 0xa9, 0x88, 0x38, 0x6f, 0xc8, 0x4b, 0xa6, 0xbc, 0x95, 0x48,
       0x40, 0x08, 0xf6, 0x36, 0x2f, 0x93, 0x16, 0x0e, 0xf3, 0xe5, 0x63, 0x08] ∧
    NodeData.set_value_on_leaf
      (.Leaf
        (Nibbles.from_raw_path
          [0x29, 0x0d, 0xec, 0xd9, 0x54, 0x8b, 0x62, 0xa8, 0xd6, 0x03, 0x45,
           0xa9, 0x88, 0x38, 0x6f, 0xc8, 0x4b, 0xa6, 0xbc, 0x95, 0x48, 0x40,
           0x08, 0xf6, 0x36, 0x2f, 0x93, 0x16, 0x0e, 0xf3, 0xe5, 0x63])
        [0x08]) [0x01] =
      (.ok (), .Leaf
        (Nibbles.from_raw_path
          [0x29, 0x0d, 0xec, 0xd9, 0x54, 0x8b, 0x62, 0xa8, 0xd6, 0x03, 0x45,
           0xa9, 0x88, 0x38, 0x6f, 0xc8, 0x4b, 0xa6, 0xbc, 0x95, 0x48, 0x40,
           0x08, 0xf6, 0x36, 0x2f, 0x93, 0x16, 0x0e, 0xf3, 0xe5, 0x63])
        [0x01]) ∧
    NodeData.to_raw_rlp
      (.Leaf
        (Nibbles.from_raw_path
          [0x29, 0x0d, 0xec, 0xd9, 0x54, 0x8b, 0x62, 0xa8, 0xd6, 0x03, 0x45,
           0xa9, 0x88, 0x38, 0x6f, 0xc8, 0x4b, 0xa6, 0xbc, 0x95, 0x48, 0x40,
           0x08, 0xf6, 0x36, 0x2f, 0x93, 0x16, 0x0e, 0xf3, 0xe5, 0x63])
        [0x01]) =
      .ok
      [0xe3, 0xa1, 0x20, 0x29, 0x0d, 0xec, 0xd9, 0x54, 0x8b, 0x62, 0xa8, 0xd6,
       0x03, 0x45, 0xa9, 0x88, 0x38, 0x6f, 0xc8, 0x4b, 0xa6, 0xbc, 0x95, 0x48,
       0x40, 0x08, 0xf6, 0x36, 0x2f, 0x93, 0x16, 0x0e, 0xf3, 0xe5, 0x63, 0x01] := by
  decide


/-- C2 (counter-evidence): at the failing input
`create_branch_or_extension(new, [1,2], 0x0a, [1,7], 0x0b)` the code
stores the two leaves with keys `[2]` and `[7]` — the full suffixes
after the common prefix `[1]`, with the branch-slot nibble retained —
and no leaf with the claimed key `slice(suffix, 1) = []` exists in the
resulting store.  The Branch construction and the Extension wrapping
behave as claimed. -/
theorem c2_branch_leaves_keep_first_nibble :
    Nodes.create_branch_or_extension Nodes.new [1, 2] [10] [1, 7] [11] =
      .ok (NodeData.Extension [1]
        [72, 230, 229, 76, 23, 223, 186, 219, 148, 222, 13, 225, 43, 155, 170,
         154, 125, 237, 223, 197, 216, 169, 45, 102, 50, 247, 93, 253, 92, 47,
         254, 128],
        [([99, 206, 169, 208, 225, 4, 193, 98, 39, 71, 179, 45, 48, 230, 196,
           114, 109, 209, 163, 138, 136, 35, 158, 84, 109, 6, 151, 162, 1, 16,
           146, 38],
          NodeData.Leaf [2] [10]),
         ([91, 219, 209, 71, 220, 156, 14, 184, 163, 179, 113, 142, 195, 212,
           137, 161, 178, 237, 1, 101, 110, 117, 148, 162, 46, 169, 86, 219, 9,
           230, 150, 140],
          NodeData.Leaf [7] [11]),
         ([72, 230, 229, 76, 23, 223, 186, 219, 148, 222, 13, 225, 43, 155,
           170, 154, 125, 237, 223, 197, 216, 169, 45, 102, 50, 247, 93, 253,
           92, 47, 254, 128],
          NodeData.Branch
            [none, none,
             some [99, 206, 169, 208, 225, 4, 193, 98, 39, 71, 179, 45, 48,
               230, 196, 114, 109, 209, 163, 138, 136, 35, 158, 84, 109, 6,
               151, 162, 1, 16, 146, 38],
             none, none, none, none,
             some [91, 219, 209, 71, 220, 156, 14, 184, 163, 179, 113, 142,
               195, 212, 137, 161, 178, 237, 1, 101, 110, 117, 148, 162, 46,
               169, 86, 219, 9, 230, 150, 140],
             none, none, none, none, none, none, none, none, none])]) ∧
    ∀ (d : Digest) (v : Bytes) (s : Nodes),
      Nodes.create_branch_or_extension Nodes.new [1, 2] [10] [1, 7] [11] =
        .ok (NodeData.Extension [1]
          [72, 230, 229, 76, 23, 223, 186, 219, 148, 222, 13, 225, 43, 155, 170,
           154, 125, 237, 223, 197, 216, 169, 45, 102, 50, 247, 93, 253, 92, 47,
           254, 128], s) →
      (d, NodeData.Leaf [] v) ∉ s := by
  constructor
  · decide
  · intro d v s hs hmem
    have hagree :
        Nodes.create_branch_or_extension Nodes.new [1, 2] [10] [1, 7] [11] =
          .ok (NodeData.Extension [1]
            [72, 230, 229, 76, 23, 223, 186, 219, 148, 222, 13, 225, 43, 155,
             170, 154, 125, 237, 223, 197, 216, 169, 45, 102, 50, 247, 93, 253,
             92, 47, 254, 128],
            [([99, 206, 169, 208, 225, 4, 193, 98, 39, 71, 179, 45, 48, 230,
               196, 114, 109, 209, 163, 138, 136, 35, 158, 84, 109, 6, 151,
               162, 1, 16, 146, 38],
              NodeData.Leaf [2] [10]),
             ([91, 219, 209, 71, 220, 156, 14, 184, 163, 179, 113, 142, 195,
               212, 137, 161, 178, 237, 1, 101, 110, 117, 148, 162, 46, 169,
               86, 219, 9, 230, 150, 140],
              NodeData.Leaf [7] [11]),
             ([72, 230, 229, 76, 23, 223, 186, 219, 148, 222, 13, 225, 43,
               155, 170, 154, 125, 237, 223, 197, 216, 169, 45, 102, 50, 247,
               93, 253, 92, 47, 254, 128],
              NodeData.Branch
                [none, none,
                 some [99, 206, 169, 208, 225, 4, 193, 98, 39, 71, 179, 45,
                   48, 230, 196, 114, 109, 209, 163, 138, 136, 35, 158, 84,
                   109, 6, 151, 162, 1, 16, 146, 38],
                 none, none, none, none,
                 some [91, 219, 209, 71, 220, 156, 14, 184, 163, 179, 113,
                   142, 195, 212, 137, 161, 178, 237, 1, 101, 110, 117, 148,
                   162, 46, 169, 86, 219, 9, 230, 150, 140],
                 none, none, none, none, none, none, none, none, none])]) := by
      decide
    rw [hagree] at hs
    injection hs with hs
    have hsEq : s = _ := (congrArg Prod.snd hs).symm
    subst hsEq
    simp only [List.mem_cons, List.not_mem_nil, or_false] at hmem
    rcases hmem with hmem | hmem | hmem <;>
      exact absurd (congrArg Prod.snd hmem) (by intro hc; cases hc)

/-! ## Lemmas: big-endian length bytes -/

/-- The fuel argument of `natToBeBytesAux` is irrelevant once it covers
`n`. -/
theorem natToBeBytesAux_congr :
    ∀ n : Nat, ∀ f : Nat, n ≤ f → natToBeBytesAux f n = natToBeBytes n := by
  intro n
  induction n using Nat.strong_induction_on with
  | _ n ih =>
    intro f hf
    match n, f with
    | 0, f => cases f <;> rfl
    | m + 1, f + 1 =>
      have hdiv : (m + 1) / 256 < m + 1 := Nat.div_lt_self (Nat.succ_pos m) (by decide)
      have h1 : natToBeBytesAux f ((m + 1) / 256) = natToBeBytes ((m + 1) / 256) :=
        ih _ hdiv f (by omega)
      have h2 : natToBeBytesAux m ((m + 1) / 256) = natToBeBytes ((m + 1) / 256) :=
        ih _ hdiv m (by omega)
      show natToBeBytesAux f ((m + 1) / 256) ++ [(m + 1) % 256] = natToBeBytes (m + 1)
      rw [h1]
      show _ = natToBeBytesAux (m + 1) (m + 1)
      rw [show natToBeBytesAux (m + 1) (m + 1) =
        natToBeBytesAux m ((m + 1) / 256) ++ [(m + 1) % 256] from rfl, h2]

/-- Unfolding equation for `natToBeBytes` at a positive argument. -/
theorem natToBeBytes_pos (n : Nat) (h : n ≠ 0) :
    natToBeBytes n = natToBeBytes (n / 256) ++ [n % 256] := by
  match n, h with
  | m + 1, _ =>
    show natToBeBytesAux (m + 1) (m + 1) = _
    rw [show natToBeBytesAux (m + 1) (m + 1) =
      natToBeBytesAux m ((m + 1) / 256) ++ [(m + 1) % 256] from rfl]
    rw [natToBeBytesAux_congr _ m (by
      have := Nat.div_lt_self (Nat.succ_pos m) (show 1 < 256 by decide)
      omega)]

/-- `beBytesToNat` recovers the number from its big-endian bytes. -/
theorem beBytesToNat_natToBeBytes : ∀ n : Nat, beBytesToNat (natToBeBytes n) = n := by
  intro n
  induction n using Nat.strong_induction_on with
  | _ n ih =>
    by_cases h : n = 0
    · subst h; rfl
    · rw [natToBeBytes_pos n h]
      have hdiv : n / 256 < n := Nat.div_lt_self (Nat.pos_of_ne_zero h) (by decide)
      have := ih _ hdiv
      simp only [beBytesToNat, List.foldl_append, List.foldl_cons, List.foldl_nil] at this ⊢
      rw [this]
      omega

/-- Big-endian byte counts are logarithmic: `n < 256 ^ k` gives at most
`k` bytes. -/
theorem natToBeBytes_length_le : ∀ n k : Nat, n < 256 ^ k → (natToBeBytes n).length ≤ k := by
  intro n
  induction n using Nat.strong_induction_on with
  | _ n ih =>
    intro k hk
    by_cases h : n = 0
    · subst h; simp [natToBeBytes, natToBeBytesAux]
    · match k with
      | 0 => simp at hk; omega
      | k + 1 =>
        rw [natToBeBytes_pos n h]
        have hdiv : n / 256 < n := Nat.div_lt_self (Nat.pos_of_ne_zero h) (by decide)
        have hk' : n / 256 < 256 ^ k := by
          rw [Nat.div_lt_iff_lt_mul (by decide : 0 < 256)]
          calc n < 256 ^ (k + 1) := hk
          _ = 256 ^ k * 256 := by ring
        have := ih _ hdiv k hk'
        simp [List.length_append]
        omega

/-- The big-endian bytes of a positive number are non-empty. -/
theorem natToBeBytes_ne_nil (n : Nat) (h : n ≠ 0) : natToBeBytes n ≠ [] := by
  rw [natToBeBytes_pos n h]
  simp

/-- The leading big-endian byte of a positive number is non-zero. -/
theorem natToBeBytes_head_ne_zero : ∀ n : Nat, n ≠ 0 → (natToBeBytes n).headD 0 ≠ 0 := by
  intro n
  induction n using Nat.strong_induction_on with
  | _ n ih =>
    intro h
    rw [natToBeBytes_pos n h]
    by_cases hs : n < 256
    · have : n / 256 = 0 := Nat.div_eq_of_lt hs
      rw [this]
      show ((natToBeBytes 0) ++ [n % 256]).headD 0 ≠ 0
      have : natToBeBytes 0 = [] := rfl
      rw [this]
      simp
      omega
    · have hd0 : n / 256 ≠ 0 := by
        intro hc
        have := Nat.div_eq_of_lt (show n < 256 by omega)
        omega
      have hne := natToBeBytes_ne_nil _ hd0
      have hih := ih (n / 256) (Nat.div_lt_self (Nat.pos_of_ne_zero h) (by decide)) hd0
      rcases hx : natToBeBytes (n / 256) with _ | ⟨c, cs⟩
      · exact absurd hx hne
      · rw [hx] at hih
        simpa using hih

/-- All big-endian bytes are below 256. -/
theorem natToBeBytes_lt : ∀ n : Nat, ∀ b ∈ natToBeBytes n, b < 256 := by
  intro n
  induction n using Nat.strong_induction_on with
  | _ n ih =>
    intro b hb
    by_cases h : n = 0
    · subst h; simp [natToBeBytes, natToBeBytesAux] at hb
    · rw [natToBeBytes_pos n h] at hb
      rcases List.mem_append.mp hb with hb | hb
      · exact ih _ (Nat.div_lt_self (Nat.pos_of_ne_zero h) (by decide)) b hb
      · simp at hb
        subst hb
        exact Nat.mod_lt _ (by decide)

/-! ## Lemmas: nibble packing and hex-prefix encoding -/

/-- Unpacking a packed even-length nibble list recovers it. -/
theorem from_raw_path_packPairs :
    ∀ l : List Nat, (∀ x ∈ l, x < 16) → l.length % 2 = 0 →
      Nibbles.from_raw_path (Nibbles.packPairs l) = l
  | [], _, _ => rfl
  | [_], _, hp => by simp at hp
  | a :: b :: t, hx, hp => by
    have ha : a < 16 := hx a (by simp)
    have hb : b < 16 := hx b (by simp)
    have ht : Nibbles.from_raw_path (Nibbles.packPairs t) = t :=
      from_raw_path_packPairs t (fun x hx' => hx x (by simp [hx'])) (by
        simp only [List.length_cons] at hp
        omega)
    show Nibbles.from_raw_path ((16 * a + b) :: Nibbles.packPairs t) = a :: b :: t
    simp only [Nibbles.from_raw_path, List.flatMap_cons] at ht ⊢
    rw [ht]
    have h1 : (16 * a + b) / 16 = a := by omega
    have h2 : (16 * a + b) % 16 = b := by omega
    rw [h1, h2]
    rfl

/-- Packed nibble-pair bytes are bytes. -/
theorem packPairs_lt :
    ∀ l : List Nat, (∀ x ∈ l, x < 16) → ∀ b ∈ Nibbles.packPairs l, b < 256
  | [], _, b, hb => by simp [Nibbles.packPairs] at hb
  | [a], _, b, hb => by simp [Nibbles.packPairs] at hb
  | a :: c :: t, hx, b, hb => by
    have ha : a < 16 := hx a (by simp)
    have hc : c < 16 := hx c (by simp)
    rcases List.mem_cons.mp hb with hb | hb
    · omega
    · exact packPairs_lt t (fun x hx' => hx x (by simp [hx'])) b hb

/-- Packing at most halves the length (up to the odd leftover). -/
theorem packPairs_length :
    ∀ l : List Nat, (Nibbles.packPairs l).length * 2 ≤ l.length + 1
  | [] => by simp [Nibbles.packPairs]
  | [a] => by simp [Nibbles.packPairs]
  | a :: c :: t => by
    have ih := packPairs_length t
    show ((16 * a + c) :: Nibbles.packPairs t).length * 2 ≤ (a :: c :: t).length + 1
    simp only [List.length_cons]
    omega

/-- The compact encoding of a well-formed path consists of bytes. -/
theorem encode_path_lt (p : Nibbles) (tm : Bool) (hx : ∀ x ∈ p, x < 16) :
    ∀ b ∈ Nibbles.encode_path p tm, b < 256 := by
  simp only [Nibbles.encode_path]
  split
  · refine packPairs_lt _ ?_
    intro x hxm
    rcases List.mem_cons.mp hxm with h | h
    · cases tm <;> simp at h <;> omega
    · exact hx x h
  · refine packPairs_lt _ ?_
    intro x hxm
    rcases List.mem_cons.mp hxm with h | h
    · cases tm <;> simp at h <;> omega
    · rcases List.mem_cons.mp h with h | h
      · omega
      · exact hx x h

/-- The compact encoding does not blow up the length. -/
theorem encode_path_length_le (p : Nibbles) (tm : Bool) :
    (Nibbles.encode_path p tm).length ≤ p.length + 2 := by
  simp only [Nibbles.encode_path]
  split
  · have h1 := packPairs_length (((2 * if tm then 1 else 0) + 1) :: p)
    simp only [List.length_cons] at h1 ⊢
    omega
  · have h1 := packPairs_length ((2 * if tm then 1 else 0) :: 0 :: p)
    simp only [List.length_cons] at h1 ⊢
    omega

/-- Hex-prefix decoding inverts hex-prefix encoding: the nibble path
and the terminator flag are both recovered (spec section 4.1
contract). -/
theorem from_encoded_encode_path (p : Nibbles) (tm : Bool) (hx : ∀ x ∈ p, x < 16) :
    Nibbles.from_encoded_path_with_terminator (Nibbles.encode_path p tm) = .ok (p, tm) := by
  simp only [Nibbles.encode_path]
  by_cases hpar : p.length % 2 = 1
  · rw [if_pos hpar]
    have hun : Nibbles.from_raw_path
        (Nibbles.packPairs (((2 * if tm then 1 else 0) + 1) :: p)) =
        ((2 * if tm then 1 else 0) + 1) :: p := by
      refine from_raw_path_packPairs _ ?_ (by
        simp only [List.length_cons]
        omega)
      intro x hxm
      rcases List.mem_cons.mp hxm with h | h
      · cases tm <;> simp at h <;> omega
      · exact hx x h
    rcases hpp : Nibbles.packPairs (((2 * if tm then 1 else 0) + 1) :: p)
        with _ | ⟨c, cs⟩
    · rcases p with _ | ⟨q, qs⟩
      · simp at hpar
      · exact absurd hpp (by simp [Nibbles.packPairs])
    · rw [hpp] at hun
      unfold Nibbles.from_encoded_path_with_terminator
      rw [hun]
      cases tm <;> simp

  · rw [if_neg hpar]
    have hun : Nibbles.from_raw_path
        (Nibbles.packPairs ((2 * if tm then 1 else 0) :: 0 :: p)) =
        (2 * if tm then 1 else 0) :: 0 :: p := by
      refine from_raw_path_packPairs _ ?_ (by
        simp only [List.length_cons]
        omega)
      intro x hxm
      rcases List.mem_cons.mp hxm with h | h
      · cases tm <;> simp at h <;> omega
      · rcases List.mem_cons.mp h with h | h
        · omega
        · exact hx x h
    rcases hpp : Nibbles.packPairs ((2 * if tm then 1 else 0) :: 0 :: p)
        with _ | ⟨c, cs⟩
    · exact absurd hpp (by simp [Nibbles.packPairs])
    · rw [hpp] at hun
      unfold Nibbles.from_encoded_path_with_terminator
      rw [hun]
      cases tm <;> simp

/-! ## Lemmas: RLP encoding and decoding agree -/

/-- An encoded byte string is never empty. -/
theorem rlpEncodeBytes_ne_nil (bs : List Nat) : rlpEncodeBytes bs ≠ [] := by
  unfold rlpEncodeBytes rlpLenHeader
  split
  · next h => rcases bs with _ | ⟨b, t⟩ <;> simp_all
  · split <;> simp

/-- Parsing the head of `rlpEncodeBytes bs ++ rest` finds exactly the
encoded item: the header length and payload length returned by
`payloadInfo` delimit `bs`. -/
theorem rlpEncodeBytes_parse (bs rest : List Nat) (hb : ∀ b ∈ bs, b < 256)
    (hl : bs.length < 2 ^ 32) :
    ∃ h, payloadInfo (rlpEncodeBytes bs ++ rest) = .ok (h, bs.length) ∧
      h + bs.length = (rlpEncodeBytes bs).length ∧
      (rlpEncodeBytes bs ++ rest).drop h = bs ++ rest := by
  by_cases h1 : bs.length = 1 ∧ bs.headD 0 ≤ 0x7f
  · obtain ⟨hlen, hhead⟩ := h1
    obtain ⟨b, rfl⟩ : ∃ b, bs = [b] := by
      rcases bs with _ | ⟨b, _ | ⟨c, t⟩⟩ <;> simp_all
    have hb7f : b ≤ 0x7f := by simpa using hhead
    have henc : rlpEncodeBytes [b] = [b] := by
      unfold rlpEncodeBytes
      rw [if_pos ⟨by simp, by simpa using hb7f⟩]
    refine ⟨0, ?_, by simp [henc], by simp [henc]⟩
    rw [henc]
    show payloadInfo (b :: rest) = _
    simp only [payloadInfo, if_pos hb7f, rlpCheckLen]
    rw [if_pos (by simp)]
    simp
  · by_cases h2 : bs.length ≤ 55
    · have henc : rlpEncodeBytes bs = (0x80 + bs.length) :: bs := by
        unfold rlpEncodeBytes rlpLenHeader
        rw [if_neg h1, if_pos h2]
        simp
    -- short-form string
      refine ⟨1, ?_, by rw [henc]; simp only [List.length_cons]; omega, by simp [henc]⟩
      rw [henc]
      show payloadInfo ((0x80 + bs.length) :: (bs ++ rest)) = _
      simp only [payloadInfo]
      rw [if_neg (by omega), if_pos (by omega)]
      simp only [rlpCheckLen]
      rw [if_pos (by simp only [List.length_cons, List.length_append]; omega)]
      congr 2
      omega
    · set bigD := natToBeBytes bs.length with hD
      set k := bigD.length with hk
      have hk1 : 1 ≤ k := by
        have hnn := natToBeBytes_ne_nil bs.length (by omega)
        rw [← hD] at hnn
        rcases hnil : bigD with _ | ⟨c, cs⟩
        · exact absurd hnil hnn
        · simp [hk, hnil]
      have hk4 : k ≤ 4 := by
        rw [hk, hD]
        exact natToBeBytes_length_le bs.length 4 (by
          have h4 : (256 : Nat) ^ 4 = 2 ^ 32 := by norm_num
          omega)
      have henc : rlpEncodeBytes bs = (0xb7 + k) :: (bigD ++ bs) := by
        unfold rlpEncodeBytes rlpLenHeader
        rw [if_neg h1, if_neg h2]
        simp [hD, hk]
      refine ⟨1 + k, ?_, ?_, ?_⟩
      · rw [henc]
        show payloadInfo ((0xb7 + k) :: (bigD ++ bs ++ rest)) = _
        simp only [payloadInfo]
        rw [if_neg (by omega), if_neg (by omega), if_pos (by omega)]
        rw [if_neg (by
          simp only [List.length_append]
          omega)]
        have htake : (bigD ++ bs ++ rest).take (0xb7 + k - 0xb7) = bigD := by
          rw [show (0xb7 + k - 0xb7) = k from by omega, List.append_assoc]
          exact List.take_left' hk.symm
        rw [htake]
        rw [if_neg (by
          have hnz := natToBeBytes_head_ne_zero bs.length (by omega)
          rw [← hD] at hnz
          exact hnz)]
        have hval : beBytesToNat bigD = bs.length := by
          rw [hD]
          exact beBytesToNat_natToBeBytes bs.length
        simp only [rlpCheckLen, hval]
        rw [if_pos (by
          simp only [List.length_cons, List.length_append]
          omega)]
        congr 2
        omega
      · rw [henc]
        simp only [List.length_cons, List.length_append]
        omega
      · rw [henc]
        have hsplit : ((0xb7 + k) :: (bigD ++ bs)) ++ rest =
            (0xb7 + k) :: (bigD ++ (bs ++ rest)) := by
          simp [List.append_assoc]
        rw [hsplit, show (1 + k) = k + 1 from by omega, List.drop_succ_cons]
        exact List.drop_left' hk.symm

/-- The encoded-item length is linear in the payload length. -/
theorem rlpEncodeBytes_length_le (bs : List Nat) (hl : bs.length < 2 ^ 32) :
    (rlpEncodeBytes bs).length ≤ bs.length + 5 := by
  unfold rlpEncodeBytes rlpLenHeader
  split
  · omega
  · split
    · simp
    · have hk4 : (natToBeBytes bs.length).length ≤ 4 :=
        natToBeBytes_length_le bs.length 4 (by
          have h4 : (256 : Nat) ^ 4 = 2 ^ 32 := by norm_num
          omega)
      simp only [List.length_cons, List.length_append]
      omega

/-- One successful step of `splitItems`. -/
theorem splitItems_cons (b : Nat) (rest : List Nat) (fuel h v : Nat)
    (hpi : payloadInfo (b :: rest) = .ok (h, v))
    (items : List (List Nat))
    (hrec : splitItems ((b :: rest).drop (h + v)) fuel = .ok items) :
    splitItems (b :: rest) (fuel + 1) = .ok ((b :: rest).take (h + v) :: items) := by
  simp only [splitItems]
  rw [hpi]
  show (match splitItems ((b :: rest).drop (h + v)) fuel with
    | Except.error e => Except.error e
    | Except.ok items => Except.ok ((b :: rest).take (h + v) :: items)) = _
  rw [hrec]

/-- Splitting the concatenation of encoded fields recovers the encoded
fields, for any sufficient fuel. -/
theorem splitItems_encFields :
    ∀ fields : List (List Nat),
      (∀ f ∈ fields, (∀ b ∈ f, b < 256) ∧ f.length < 2 ^ 32) →
      ∀ fuel : Nat, (fields.map rlpEncodeBytes).flatten.length ≤ fuel →
      splitItems (fields.map rlpEncodeBytes).flatten fuel = .ok (fields.map rlpEncodeBytes) := by
  intro fields
  induction fields with
  | nil =>
    intro _ fuel _
    simp only [List.map_nil, List.flatten_nil]
    cases fuel <;> rfl
  | cons f fs ih =>
    intro hwf fuel hfuel
    obtain ⟨hfb, hflen⟩ := hwf f (by simp)
    have hflat : ((f :: fs).map rlpEncodeBytes).flatten =
        rlpEncodeBytes f ++ (fs.map rlpEncodeBytes).flatten := by
      simp
    obtain ⟨c, cs, hcons⟩ : ∃ c cs, rlpEncodeBytes f = c :: cs := by
      rcases hx : rlpEncodeBytes f with _ | ⟨c, cs⟩
      · exact absurd hx (rlpEncodeBytes_ne_nil f)
      · exact ⟨c, cs, rfl⟩
    obtain ⟨h, hpi, hhv, hdrop⟩ :=
      rlpEncodeBytes_parse f ((fs.map rlpEncodeBytes).flatten) hfb hflen
    rw [hcons] at hpi hhv hdrop
    simp only [List.cons_append] at hpi hdrop
    have hlen_cs : h + f.length = cs.length + 1 := by
      simpa using hhv
    match fuel with
    | 0 =>
      rw [hflat, hcons] at hfuel
      simp at hfuel
    | fuel + 1 =>
      rw [hflat, hcons]
      simp only [List.cons_append]
      have hdrop2 : (c :: (cs ++ (fs.map rlpEncodeBytes).flatten)).drop (h + f.length) =
          (fs.map rlpEncodeBytes).flatten := by
        rw [show c :: (cs ++ (fs.map rlpEncodeBytes).flatten) =
          (c :: cs) ++ (fs.map rlpEncodeBytes).flatten from rfl]
        rw [show (h + f.length) = (c :: cs).length from by simp [hlen_cs]]
        exact List.drop_left _ _
      have htake2 : (c :: (cs ++ (fs.map rlpEncodeBytes).flatten)).take (h + f.length) =
          c :: cs := by
        rw [show c :: (cs ++ (fs.map rlpEncodeBytes).flatten) =
          (c :: cs) ++ (fs.map rlpEncodeBytes).flatten from rfl]
        rw [show (h + f.length) = (c :: cs).length from by simp [hlen_cs]]
        exact List.take_left _ _
      have hrec : splitItems
          ((c :: (cs ++ (fs.map rlpEncodeBytes).flatten)).drop (h + f.length)) fuel =
          .ok (fs.map rlpEncodeBytes) := by
        rw [hdrop2]
        refine ih (fun g hg => hwf g (by simp [hg])) fuel ?_
        rw [hflat, hcons] at hfuel
        simp only [List.cons_append, List.length_cons, List.length_append] at hfuel ⊢
        omega
      rw [splitItems_cons c _ fuel h f.length hpi _ hrec, htake2]
      simp [hcons]

/-- Reduction of `rlpItems` once the header parses. -/
theorem rlpItems_eq (raw : List Nat) (hlist : rlpIsList raw = true) (h v : Nat)
    (hpi : payloadInfo raw = .ok (h, v)) :
    rlpItems raw =
      splitItems ((raw.drop h).take v) ((raw.drop h).take v).length := by
  unfold rlpItems
  rw [if_pos hlist, hpi]

/-- Reduction of `rlpAt` once the items are known. -/
theorem rlpAt_eq (raw : List Nat) (i : Nat) (items : List (List Nat))
    (hitems : rlpItems raw = .ok items) (it : List Nat)
    (hit : items.get? i = some it) : rlpAt raw i = .ok it := by
  unfold rlpAt
  rw [hitems]
  show (match items.get? i with
    | some it => Except.ok it
    | none => Except.error DecoderError.RlpIsTooShort) = _
  rw [hit]

/-- `data()` on an encoded byte string recovers the bytes. -/
theorem rlpData_encodeBytes (f : List Nat) (hb : ∀ b ∈ f, b < 256)
    (hl : f.length < 2 ^ 32) : rlpData (rlpEncodeBytes f) = .ok f := by
  obtain ⟨h, hpi, hhv, hdrop⟩ := rlpEncodeBytes_parse f [] hb hl
  rw [List.append_nil] at hpi hdrop
  unfold rlpData
  rw [hpi]
  show Except.ok (((rlpEncodeBytes f).drop h).take f.length) = _
  rw [hdrop]
  simp

/-- The header structure of `rlpWrapList`. -/
theorem rlpWrapList_eq (fields : List (List Nat)) :
    rlpWrapList fields =
      rlpLenHeader (fields.map rlpEncodeBytes).flatten.length 0xc0 ++
        (fields.map rlpEncodeBytes).flatten := rfl

/-- `rlpItems` of an encoded list recovers the encoded fields. -/
theorem rlpItems_wrapList (fields : List (List Nat))
    (hwf : ∀ f ∈ fields, (∀ b ∈ f, b < 256) ∧ f.length < 2 ^ 32)
    (hP : (fields.map rlpEncodeBytes).flatten.length < 2 ^ 64) :
    rlpItems (rlpWrapList fields) = .ok (fields.map rlpEncodeBytes) := by
  set payload := (fields.map rlpEncodeBytes).flatten with hpay
  by_cases hshort : payload.length ≤ 55
  · have henc : rlpWrapList fields = (0xc0 + payload.length) :: payload := by
      rw [rlpWrapList_eq, ← hpay]
      unfold rlpLenHeader
      rw [if_pos hshort]
      rfl
    have hpi : payloadInfo ((0xc0 + payload.length) :: payload) =
        .ok (1, payload.length) := by
      simp only [payloadInfo]
      rw [if_neg (by omega), if_neg (by omega), if_neg (by omega), if_pos (by omega)]
      simp only [rlpCheckLen]
      rw [if_pos (by simp only [List.length_cons]; omega)]
      congr 2
      omega
    rw [henc, rlpItems_eq _ (by simp [rlpIsList]) 1 payload.length hpi]
    have hdt : (((0xc0 + payload.length) :: payload).drop 1).take payload.length =
        payload := by
      simp
    rw [hdt]
    exact splitItems_encFields fields hwf payload.length (le_refl _)
  · set bigD := natToBeBytes payload.length with hD
    set k := bigD.length with hk
    have hk1 : 1 ≤ k := by
      have hnn := natToBeBytes_ne_nil payload.length (by omega)
      rw [← hD] at hnn
      rcases hnil : bigD with _ | ⟨c, cs⟩
      · exact absurd hnil hnn
      · simp [hk, hnil]
    have hk8 : k ≤ 8 := by
      rw [hk, hD]
      exact natToBeBytes_length_le payload.length 8 (by
        have h8 : (256 : Nat) ^ 8 = 2 ^ 64 := by norm_num
        omega)
    have henc : rlpWrapList fields = (0xf7 + k) :: (bigD ++ payload) := by
      rw [rlpWrapList_eq, ← hpay]
      unfold rlpLenHeader
      rw [if_neg hshort, ← hD, ← hk]
      rfl
    have hpi : payloadInfo ((0xf7 + k) :: (bigD ++ payload)) =
        .ok (1 + k, payload.length) := by
      simp only [payloadInfo]
      rw [if_neg (by omega), if_neg (by omega), if_neg (by omega), if_neg (by omega)]
      rw [if_neg (by simp only [List.length_append]; omega)]
      have htake : (bigD ++ payload).take (0xf7 + k - 0xf7) = bigD := by
        rw [show (0xf7 + k - 0xf7) = k from by omega]
        exact List.take_left' hk.symm
      rw [htake]
      rw [if_neg (by
        have hnz := natToBeBytes_head_ne_zero payload.length (by omega)
        rw [← hD] at hnz
        exact hnz)]
      have hval : beBytesToNat bigD = payload.length := by
        rw [hD]
        exact beBytesToNat_natToBeBytes payload.length
      simp only [rlpCheckLen, hval]
      rw [if_pos (by simp only [List.length_cons, List.length_append]; omega)]
      congr 2
      omega
    rw [henc, rlpItems_eq _ (by simp [rlpIsList]; omega) (1 + k) payload.length hpi]
    have hdt : (((0xf7 + k) :: (bigD ++ payload)).drop (1 + k)).take payload.length =
        payload := by
      rw [show (1 + k) = k + 1 from by omega, List.drop_succ_cons,
        List.drop_left' hk.symm]
      simp
    rw [hdt]
    exact splitItems_encFields fields hwf payload.length (le_refl _)

/-- `item_count` of an encoded list is the number of fields. -/
theorem rlpItemCount_wrapList (fields : List (List Nat))
    (hwf : ∀ f ∈ fields, (∀ b ∈ f, b < 256) ∧ f.length < 2 ^ 32)
    (hP : (fields.map rlpEncodeBytes).flatten.length < 2 ^ 64) :
    rlpItemCount (rlpWrapList fields) = .ok fields.length := by
  unfold rlpItemCount
  rw [rlpItems_wrapList fields hwf hP]
  simp [Except.map]

/-- `at(i).data()` of an encoded list recovers field `i`. -/
theorem rlpAtData_wrapList (fields : List (List Nat))
    (hwf : ∀ f ∈ fields, (∀ b ∈ f, b < 256) ∧ f.length < 2 ^ 32)
    (hP : (fields.map rlpEncodeBytes).flatten.length < 2 ^ 64)
    (i : Nat) (hi : i < fields.length) :
    rlpAtData (rlpWrapList fields) i = .ok (fields.getD i []) := by
  have hgd : fields.getD i [] = fields.get ⟨i, hi⟩ := by
    rw [List.getD_eq_getElem _ _ hi]
    simp [List.get_eq_getElem]
  have hg : (fields.map rlpEncodeBytes).get? i =
      some (rlpEncodeBytes (fields.getD i [])) := by
    rw [hgd]
    rw [List.get?_eq_getElem?, List.getElem?_map]
    rw [List.getElem?_eq_getElem (by simpa using hi)]
    simp [List.get_eq_getElem]
  have hat := rlpAt_eq (rlpWrapList fields) i (fields.map rlpEncodeBytes)
    (rlpItems_wrapList fields hwf hP) (rlpEncodeBytes (fields.getD i [])) hg
  unfold rlpAtData
  rw [hat]
  show rlpData (rlpEncodeBytes (fields.getD i [])) = _
  obtain ⟨hfb, hflen⟩ := hwf (fields.getD i []) (by
    rw [hgd]
    exact List.get_mem fields i hi)
  exact rlpData_encodeBytes _ hfb hflen

/-! ## Lemmas: `mapM` over `Except` and branch slots -/

/-- `mapM` succeeds pointwise. -/
theorem mapM_ok_of_pointwise {α β : Type} (f : α → Except Error β) (g : α → β) :
    ∀ l : List α, (∀ a ∈ l, f a = .ok (g a)) → l.mapM f = .ok (l.map g) := by
  intro l
  induction l with
  | nil => intro _; rfl
  | cons a t ih =>
    intro h
    rw [List.mapM_cons, h a (by simp), ih (fun x hx => h x (by simp [hx]))]
    rfl

/-- `mapM` fails with the common error as soon as one element fails,
provided every element either succeeds or fails with that error. -/
theorem mapM_error_of_exists {α β : Type} (f : α → Except Error β) (e : Error) :
    ∀ l : List α, (∀ a ∈ l, (∃ b, f a = .ok b) ∨ f a = .error e) →
      (∃ a ∈ l, f a = .error e) → l.mapM f = .error e := by
  intro l
  induction l with
  | nil => intro _ h; simp at h
  | cons a t ih =>
    intro hall hex
    rw [List.mapM_cons]
    rcases hall a (by simp) with ⟨b, hb⟩ | hb
    · rcases hex with ⟨x, hx, hfx⟩
      rcases List.mem_cons.mp hx with rfl | hx
      · rw [hfx] at hb
        exact absurd hb (by simp)
      · rw [hb, ih (fun y hy => hall y (by simp [hy])) ⟨x, hx, hfx⟩]
        rfl
    · rw [hb]
      rfl

/-- Reading a length-`n` list back off `List.range n` by `getD` is the
identity. -/
theorem range_map_getD {α : Type} (d : α) :
    ∀ (n : Nat) (l : List α), l.length = n →
      (List.range n).map (fun i => l.getD i d) = l := by
  intro n l hl
  apply List.ext_get
  · simp [hl]
  · intro i h1 h2
    simp only [List.get_eq_getElem, List.getElem_map, List.getElem_range]
    rw [List.getD_eq_getElem _ _ (by simp at h1; omega)]

/-- Sharper length bound for the compact encoding. -/
theorem encode_path_length_le2 (p : Nibbles) (tm : Bool) :
    (Nibbles.encode_path p tm).length * 2 ≤ p.length + 4 := by
  simp only [Nibbles.encode_path]
  split
  · have h1 := packPairs_length (((2 * if tm then 1 else 0) + 1) :: p)
    simp only [List.length_cons] at h1 ⊢
    omega
  · have h1 := packPairs_length ((2 * if tm then 1 else 0) :: 0 :: p)
    simp only [List.length_cons] at h1 ⊢
    omega

/-- Uniformly bounded chunks flatten to a bounded list. -/
theorem flatten_length_le :
    ∀ (l : List (List Nat)) (c : Nat), (∀ x ∈ l, x.length ≤ c) →
      l.flatten.length ≤ l.length * c := by
  intro l
  induction l with
  | nil => intro c _; simp
  | cons x t ih =>
    intro c hc
    simp only [List.flatten_cons, List.length_append, List.length_cons]
    have h1 := hc x (by simp)
    have h2 := ih c (fun y hy => hc y (by simp [hy]))
    have h3 : (t.length + 1) * c = t.length * c + c := by ring
    omega

/-- `getD` commutes with `map` below the length. -/
theorem getD_map_slot {α β : Type} (f : α → β) (d : α) :
    ∀ (l : List α) (i : Nat), i < l.length → (l.map f).getD i (f d) = f (l.getD i d) := by
  intro l
  induction l with
  | nil => intro i h; simp at h
  | cons a t ih =>
    intro i h
    cases i with
    | zero => simp
    | succ j =>
      simp only [List.map_cons, List.getD_cons_succ]
      exact ih j (by simpa using h)

/-- Serialization and deserialization of a well-formed Branch: each
slot is carried as its digest bytes (empty bytes when absent), and the
decoder recovers the branch. -/
theorem branch_encode_decode (arr : List (Option Digest)) (hlen17 : arr.length = 17)
    (hslots : ∀ o ∈ arr, wfSlot o) :
    (∀ i, i < 17 →
      rlpAtData (rlpWrapList (arr.map fun entry =>
        match entry with
        | some hd => hd
        | none => [])) i =
        .ok ((arr.getD i none).getD [])) ∧
    NodeData.from_raw_rlp (rlpWrapList (arr.map fun entry =>
        match entry with
        | some hd => hd
        | none => [])) =
      .ok (.Branch arr) := by
  set slotB : Option Digest → List Nat := fun entry =>
    match entry with
    | some hd => hd
    | none => [] with hslotB
  set fields := arr.map slotB with hfields
  have hfl : fields.length = 17 := by simp [hfields, hlen17]
  have hwff : ∀ f ∈ fields, (∀ x ∈ f, x < 256) ∧ f.length < 2 ^ 32 := by
    intro f hf
    rw [hfields] at hf
    obtain ⟨o, ho, rfl⟩ := List.mem_map.mp hf
    have hws := hslots o ho
    cases o with
    | some d =>
      obtain ⟨hd32, hd256⟩ := hws
      refine ⟨hd256, ?_⟩
      have he : slotB (some d) = d := rfl
      rw [he]
      omega
    | none =>
      have he : slotB none = ([] : List Nat) := rfl
      rw [he]
      simp
  have hP : (fields.map rlpEncodeBytes).flatten.length < 2 ^ 64 := by
    have hbound : ∀ x ∈ fields.map rlpEncodeBytes, x.length ≤ 37 := by
      intro x hx
      obtain ⟨f, hf, rfl⟩ := List.mem_map.mp hx
      obtain ⟨hfb, hfle⟩ := hwff f hf
      have hfshort : f.length ≤ 32 := by
        rw [hfields] at hf
        obtain ⟨o, ho, rfl⟩ := List.mem_map.mp hf
        have hws := hslots o ho
        cases o with
        | some d =>
          obtain ⟨hd32, _⟩ := hws
          have he : slotB (some d) = d := rfl
          rw [he]
          omega
        | none =>
          have he : slotB none = ([] : List Nat) := rfl
          rw [he]
          simp
      have := rlpEncodeBytes_length_le f hfle
      omega
    have := flatten_length_le (fields.map rlpEncodeBytes) 37 hbound
    simp only [List.length_map, hfl] at this
    omega
  have hcount := rlpItemCount_wrapList fields hwff hP
  rw [hfl] at hcount
  have hat : ∀ i, i < 17 →
      rlpAtData (rlpWrapList fields) i = .ok ((arr.getD i none).getD []) := by
    intro i hi17
    have hat0 := rlpAtData_wrapList fields hwff hP i (by omega)
    have hgetf : fields.getD i [] = slotB (arr.getD i none) := by
      rw [hfields]
      exact getD_map_slot slotB none arr i (by omega)
    have hsg : slotB (arr.getD i none) = (arr.getD i none).getD [] := by
      cases arr.getD i none <;> rfl
    rw [hgetf, hsg] at hat0
    exact hat0
  refine ⟨hat, ?_⟩
  have hstep : ∀ i ∈ List.range 17,
      (match liftDec (rlpAtData (rlpWrapList fields) i) with
        | .error e => (.error e : Except Error (Option Digest))
        | .ok value =>
          if value.length = 32 then .ok (some value)
          else if value.length = 0 then .ok none
          else .error (.InternalError "invalid hash length in Extension")) =
        .ok (arr.getD i none) := by
    intro i hi
    have hi17 : i < 17 := by simpa using hi
    have hat0 := hat i hi17
    rw [hat0]
    simp only [liftDec]
    show (if ((arr.getD i none).getD []).length = 32
      then Except.ok (some ((arr.getD i none).getD []))
      else if ((arr.getD i none).getD []).length = 0
        then Except.ok none
        else Except.error (Error.InternalError "invalid hash length in Extension")) =
      Except.ok (arr.getD i none)
    have hmem : arr.getD i none ∈ arr := by
      rw [List.getD_eq_getElem _ _ (by omega)]
      exact List.getElem_mem _
    have hws := hslots _ hmem
    cases harr : arr.getD i none with
    | some d =>
      rw [harr] at hws
      obtain ⟨hd32, _⟩ := hws
      simp [hd32]
    | none => simp
  have hmapM := mapM_ok_of_pointwise _ (fun i => arr.getD i none) (List.range 17)
    hstep
  have hrange := range_map_getD (none : Option Digest) 17 arr hlen17
  rw [hrange] at hmapM
  have hl17 : liftDec (Except.ok 17) = (Except.ok 17 : Except Error Nat) := rfl
  simp only [NodeData.from_raw_rlp, hcount, hl17, hmapM]

/-- C1: decoding the serialization of any well-formed node returns the
same node: `from_raw_rlp(to_raw_rlp(n)) = n`. -/
theorem c1_from_raw_rlp_to_raw_rlp (n : NodeData) (hn : n.wf) (b : Bytes)
    (hb : n.to_raw_rlp = .ok b) : NodeData.from_raw_rlp b = .ok n := by
  cases n with
  | Leaf key value =>
    obtain ⟨⟨hk16, hklen⟩, hv256, hvlen⟩ := hn
    rw [show NodeData.to_raw_rlp (.Leaf key value) =
      .ok (rlpWrapList [Nibbles.encode_path key true, value]) from rfl] at hb
    injection hb with hb
    subst hb
    set fields := [Nibbles.encode_path key true, value] with hfields
    have hwff : ∀ f ∈ fields, (∀ x ∈ f, x < 256) ∧ f.length < 2 ^ 32 := by
      intro f hf
      rcases List.mem_cons.mp hf with rfl | hf
      · refine ⟨encode_path_lt key true hk16, ?_⟩
        have := encode_path_length_le2 key true
        omega
      · rcases List.mem_cons.mp hf with rfl | hf
        · exact ⟨hv256, hvlen⟩
        · simp at hf
    have hP : (fields.map rlpEncodeBytes).flatten.length < 2 ^ 64 := by
      have h1 := rlpEncodeBytes_length_le (Nibbles.encode_path key true) (by
        have := encode_path_length_le2 key true
        omega)
      have h2 := rlpEncodeBytes_length_le value hvlen
      have h3 := encode_path_length_le2 key true
      simp only [hfields, List.map_cons, List.map_nil, List.flatten_cons,
        List.flatten_nil, List.append_nil, List.length_append]
      omega
    have hcount := rlpItemCount_wrapList fields hwff hP
    have hat0 := rlpAtData_wrapList fields hwff hP 0 (by simp [hfields])
    have hat1 := rlpAtData_wrapList fields hwff hP 1 (by simp [hfields])
    simp only [hfields, List.length_cons, List.length_nil, List.getD_cons_zero,
      List.getD_cons_succ] at hcount hat0 hat1
    simp only [NodeData.from_raw_rlp, hcount, liftDec, hat0, hat1,
      from_encoded_encode_path key true hk16]
    simp
  | Extension key node =>
    obtain ⟨⟨hk16, hklen⟩, h32, hd256⟩ := hn
    rw [show NodeData.to_raw_rlp (.Extension key node) =
      .ok (rlpWrapList [Nibbles.encode_path key false, node]) from rfl] at hb
    injection hb with hb
    subst hb
    set fields := [Nibbles.encode_path key false, node] with hfields
    have hwff : ∀ f ∈ fields, (∀ x ∈ f, x < 256) ∧ f.length < 2 ^ 32 := by
      intro f hf
      rcases List.mem_cons.mp hf with rfl | hf
      · refine ⟨encode_path_lt key false hk16, ?_⟩
        have := encode_path_length_le2 key false
        omega
      · rcases List.mem_cons.mp hf with rfl | hf
        · exact ⟨hd256, by omega⟩
        · simp at hf
    have hP : (fields.map rlpEncodeBytes).flatten.length < 2 ^ 64 := by
      have h1 := rlpEncodeBytes_length_le (Nibbles.encode_path key false) (by
        have := encode_path_length_le2 key false
        omega)
      have h2 := rlpEncodeBytes_length_le node (by omega)
      have h3 := encode_path_length_le2 key false
      simp only [hfields, List.map_cons, List.map_nil, List.flatten_cons,
        List.flatten_nil, List.append_nil, List.length_append]
      omega
    have hcount := rlpItemCount_wrapList fields hwff hP
    have hat0 := rlpAtData_wrapList fields hwff hP 0 (by simp [hfields])
    have hat1 := rlpAtData_wrapList fields hwff hP 1 (by simp [hfields])
    simp only [hfields, List.length_cons, List.length_nil, List.getD_cons_zero,
      List.getD_cons_succ] at hcount hat0 hat1
    simp only [NodeData.from_raw_rlp, hcount, liftDec, hat0, hat1,
      from_encoded_encode_path key false hk16, h32]
    simp
  | Branch arr =>
    obtain ⟨hlen17, hslots⟩ := hn
    rw [show NodeData.to_raw_rlp (.Branch arr) =
      .ok (rlpWrapList (arr.map fun entry =>
        match entry with
        | some hd => hd
        | none => [])) from rfl] at hb
    injection hb with hb
    subst hb
    exact (branch_encode_decode arr hlen17 hslots).2

/-- Witness for C1: the small leaf `Leaf{key: [2, 9], value: 0x08}` is
well-formed, serializes to `0xc482202908`, and decodes back to
itself. -/
theorem c1_from_raw_rlp_to_raw_rlp_witness :
    (NodeData.Leaf [2, 9] [8]).wf ∧
    NodeData.from_raw_rlp [0xc4, 0x82, 0x20, 0x29, 0x08] = .ok (.Leaf [2, 9] [8]) :=
  ⟨by decide, c1_from_raw_rlp_to_raw_rlp (.Leaf [2, 9] [8]) (by decide)
    [0xc4, 0x82, 0x20, 0x29, 0x08] (by decide)⟩

/-- C7: in the serialization of a well-formed Branch, slot `i` is
carried as the empty byte string exactly when the slot is absent
(`None`) — never as the 32-byte empty-trie sentinel digest — and
decoding recovers the branch with absent slots back as `None`, so the
two representations are distinguished. -/
theorem c7_absent_slot_is_empty_bytes (arr : List (Option Digest))
    (h : (NodeData.Branch arr).wf) (i : Nat) (hi : i < 17) (b : Bytes)
    (hb : NodeData.to_raw_rlp (.Branch arr) = .ok b) :
    rlpAtData b i = .ok ((arr.getD i none).getD []) ∧
    (arr.getD i none = none ↔ rlpAtData b i = .ok []) ∧
    NodeData.from_raw_rlp b = .ok (.Branch arr) := by
  obtain ⟨hlen17, hslots⟩ := h
  rw [show NodeData.to_raw_rlp (.Branch arr) =
    .ok (rlpWrapList (arr.map fun entry =>
      match entry with
      | some hd => hd
      | none => [])) from rfl] at hb
  injection hb with hb
  subst hb
  obtain ⟨hat, hdec⟩ := branch_encode_decode arr hlen17 hslots
  refine ⟨hat i hi, ?_, hdec⟩
  constructor
  · intro hnone
    have h1 := hat i hi
    rw [hnone] at h1
    simpa using h1
  · intro hok
    have h1 := hat i hi
    have h2 : ((arr.getD i none).getD []) = [] := by
      have h3 := h1.symm.trans hok
      injection h3
    cases harr : arr.getD i none with
    | none => rfl
    | some d =>
      rw [harr] at h2
      simp only [Option.getD_some] at h2
      have hmem : arr.getD i none ∈ arr := by
        rw [List.getD_eq_getElem _ _ (by omega)]
        exact List.getElem_mem _
      rw [harr] at hmem
      obtain ⟨hd32, _⟩ := hslots _ hmem
      rw [h2] at hd32
      simp at hd32

/-- Witness for C7: a branch with the empty-trie sentinel digest in
slot 0 and absent slots elsewhere; its serialization carries slot 0 as
the 33-byte string of the sentinel and slot 1 as the empty byte
string. -/
theorem c7_absent_slot_is_empty_bytes_witness :
    (NodeData.Branch ((List.replicate 17 (none : Option Digest)).set 0
      (some [0x56, 0xe8, 0x1f, 0x17, 0x1b, 0xcc, 0x55, 0xa6, 0xff, 0x83, 0x45,
        0xe6, 0x92, 0xc0, 0xf8, 0x6e, 0x5b, 0x48, 0xe0, 0x1b, 0x99, 0x6c, 0xad,
        0xc0, 0x01, 0x62, 0x2f, 0xb5, 0xe3, 0x63, 0xb4, 0x21]))).wf ∧
    (rlpAtData
        [0xf1, 0xa0, 0x56, 0xe8, 0x1f, 0x17, 0x1b, 0xcc, 0x55, 0xa6, 0xff, 0x83,
         0x45, 0xe6, 0x92, 0xc0, 0xf8, 0x6e, 0x5b, 0x48, 0xe0, 0x1b, 0x99, 0x6c,
         0xad, 0xc0, 0x01, 0x62, 0x2f, 0xb5, 0xe3, 0x63, 0xb4, 0x21, 0x80, 0x80,
         0x80, 0x80, 0x80, 0x80, 0x80, 0x80, 0x80, 0x80, 0x80, 0x80, 0x80, 0x80,
         0x80, 0x80] 1 =
      .ok ((((List.replicate 17 (none : Option Digest)).set 0
        (some [0x56, 0xe8, 0x1f, 0x17, 0x1b, 0xcc, 0x55, 0xa6, 0xff, 0x83, 0x45,
          0xe6, 0x92, 0xc0, 0xf8, 0x6e, 0x5b, 0x48, 0xe0, 0x1b, 0x99, 0x6c, 0xad,
          0xc0, 0x01, 0x62, 0x2f, 0xb5, 0xe3, 0x63, 0xb4, 0x21])).getD 1 none).getD [])) ∧
    ((((List.replicate 17 (none : Option Digest)).set 0
        (some [0x56, 0xe8, 0x1f, 0x17, 0x1b, 0xcc, 0x55, 0xa6, 0xff, 0x83, 0x45,
          0xe6, 0x92, 0xc0, 0xf8, 0x6e, 0x5b, 0x48, 0xe0, 0x1b, 0x99, 0x6c, 0xad,
          0xc0, 0x01, 0x62, 0x2f, 0xb5, 0xe3, 0x63, 0xb4, 0x21])).getD 1 none) = none ↔
      rlpAtData
        [0xf1, 0xa0, 0x56, 0xe8, 0x1f, 0x17, 0x1b, 0xcc, 0x55, 0xa6, 0xff, 0x83,
         0x45, 0xe6, 0x92, 0xc0, 0xf8, 0x6e, 0x5b, 0x48, 0xe0, 0x1b, 0x99, 0x6c,
         0xad, 0xc0, 0x01, 0x62, 0x2f, 0xb5, 0xe3, 0x63, 0xb4, 0x21, 0x80, 0x80,
         0x80, 0x80, 0x80, 0x80, 0x80, 0x80, 0x80, 0x80, 0x80, 0x80, 0x80, 0x80,
         0x80, 0x80] 1 = .ok []) ∧
    NodeData.from_raw_rlp
        [0xf1, 0xa0, 0x56, 0xe8, 0x1f, 0x17, 0x1b, 0xcc, 0x55, 0xa6, 0xff, 0x83,
         0x45, 0xe6, 0x92, 0xc0, 0xf8, 0x6e, 0x5b, 0x48, 0xe0, 0x1b, 0x99, 0x6c,
         0xad, 0xc0, 0x01, 0x62, 0x2f, 0xb5, 0xe3, 0x63, 0xb4, 0x21, 0x80, 0x80,
         0x80, 0x80, 0x80, 0x80, 0x80, 0x80, 0x80, 0x80, 0x80, 0x80, 0x80, 0x80,
         0x80, 0x80] =
      .ok (.Branch ((List.replicate 17 (none : Option Digest)).set 0
        (some [0x56, 0xe8, 0x1f, 0x17, 0x1b, 0xcc, 0x55, 0xa6, 0xff, 0x83, 0x45,
          0xe6, 0x92, 0xc0, 0xf8, 0x6e, 0x5b, 0x48, 0xe0, 0x1b, 0x99, 0x6c, 0xad,
          0xc0, 0x01, 0x62, 0x2f, 0xb5, 0xe3, 0x63, 0xb4, 0x21]))) :=
  ⟨by decide, c7_absent_slot_is_empty_bytes _ (by decide) 1 (by decide) _ (by decide)⟩

/-! ## Lemmas: decode shape analysis -/

/-- Reduction of `from_raw_rlp` on a 2-item list with a decodable
compact path. -/
theorem from_raw_rlp_two (raw : Bytes) (v0 v1 : List Nat) (key : Nibbles) (t : Bool)
    (hc : rlpItemCount raw = .ok 2)
    (h0 : rlpAtData raw 0 = .ok v0)
    (h1 : rlpAtData raw 1 = .ok v1)
    (hk : Nibbles.from_encoded_path_with_terminator v0 = .ok (key, t)) :
    NodeData.from_raw_rlp raw =
      if t then .ok (.Leaf key v1)
      else if v1.length ≠ 32 then
        .error (.InternalError "invalid hash length in Extension")
      else .ok (.Extension key v1) := by
  simp only [NodeData.from_raw_rlp, hc, liftDec, h0, h1, hk]

/-- Reduction of `from_raw_rlp` on a 17-item list whose slots all
decode with lengths 32 or 0. -/
theorem from_raw_rlp_seventeen (raw : Bytes) (vs : List (List Nat))
    (hc : rlpItemCount raw = .ok 17) (hlen : vs.length = 17)
    (hv : ∀ i, i < 17 → rlpAtData raw i = .ok (vs.getD i []))
    (hall : ∀ v ∈ vs, v.length = 32 ∨ v.length = 0) :
    NodeData.from_raw_rlp raw =
      .ok (.Branch (vs.map fun v => if v.length = 32 then some v else none)) := by
  set bigF : List Nat → Option Digest := fun v =>
    if v.length = 32 then some v else none with hF
  have hstep : ∀ i ∈ List.range 17,
      (match liftDec (rlpAtData raw i) with
        | .error e => (.error e : Except Error (Option Digest))
        | .ok value =>
          if value.length = 32 then .ok (some value)
          else if value.length = 0 then .ok none
          else .error (.InternalError "invalid hash length in Extension")) =
        .ok ((vs.map bigF).getD i none) := by
    intro i hi
    have hi17 : i < 17 := by simpa using hi
    rw [hv i hi17]
    simp only [liftDec]
    have hg : (vs.map bigF).getD i none = bigF (vs.getD i []) := by
      have he : bigF [] = none := rfl
      rw [← he]
      exact getD_map_slot bigF [] vs i (by omega)
    rw [hg]
    have hmem : vs.getD i [] ∈ vs := by
      rw [List.getD_eq_getElem _ _ (by omega)]
      exact List.getElem_mem _
    rcases hall _ hmem with h32 | h0
    · rw [hF]
      simp_all
    · have hn32 : (vs.getD i []).length ≠ 32 := by omega
      rw [hF]
      simp_all
  have hmapM := mapM_ok_of_pointwise _ (fun i => (vs.map bigF).getD i none)
    (List.range 17) hstep
  have hrange := range_map_getD (none : Option Digest) 17 (vs.map bigF) (by
    simp [hlen])
  rw [hrange] at hmapM
  have hl17 : liftDec (Except.ok 17) = (Except.ok 17 : Except Error Nat) := rfl
  simp only [NodeData.from_raw_rlp, hc, hl17, hmapM]

/-- Reduction of `from_raw_rlp` on a 17-item list with a slot of
invalid length. -/
theorem from_raw_rlp_seventeen_badslot (raw : Bytes) (vs : List (List Nat)) (i : Nat)
    (hc : rlpItemCount raw = .ok 17) (hlen : vs.length = 17)
    (hv : ∀ j, j < 17 → rlpAtData raw j = .ok (vs.getD j []))
    (hi : i < 17) (h32 : (vs.getD i []).length ≠ 32) (h0 : (vs.getD i []).length ≠ 0) :
    NodeData.from_raw_rlp raw =
      .error (.InternalError "invalid hash length in Extension") := by
  have hstep : ∀ j ∈ List.range 17,
      (∃ b, (match liftDec (rlpAtData raw j) with
        | .error e => (.error e : Except Error (Option Digest))
        | .ok value =>
          if value.length = 32 then .ok (some value)
          else if value.length = 0 then .ok none
          else .error (.InternalError "invalid hash length in Extension")) = .ok b) ∨
      (match liftDec (rlpAtData raw j) with
        | .error e => (.error e : Except Error (Option Digest))
        | .ok value =>
          if value.length = 32 then .ok (some value)
          else if value.length = 0 then .ok none
          else .error (.InternalError "invalid hash length in Extension")) =
        .error (.InternalError "invalid hash length in Extension") := by
    intro j hj
    have hj17 : j < 17 := by simpa using hj
    rw [hv j hj17]
    simp only [liftDec]
    by_cases hl32 : (vs.getD j []).length = 32
    · exact Or.inl ⟨some (vs.getD j []), by simp_all⟩
    · by_cases hl0 : (vs.getD j []).length = 0
      · exact Or.inl ⟨none, by simp_all⟩
      · exact Or.inr (by simp_all)
  have hbad : ∃ j ∈ List.range 17,
      (match liftDec (rlpAtData raw j) with
        | .error e => (.error e : Except Error (Option Digest))
        | .ok value =>
          if value.length = 32 then .ok (some value)
          else if value.length = 0 then .ok none
          else .error (.InternalError "invalid hash length in Extension")) =
        .error (.InternalError "invalid hash length in Extension") := by
    refine ⟨i, by simpa using hi, ?_⟩
    rw [hv i hi]
    simp only [liftDec]
    simp_all
  have hmapM := mapM_error_of_exists _ _ (List.range 17) hstep hbad
  have hl17 : liftDec (Except.ok 17) = (Except.ok 17 : Except Error Nat) := rfl
  simp only [NodeData.from_raw_rlp, hc, hl17, hmapM]

/-- Reduction of `from_raw_rlp` on any other item count. -/
theorem from_raw_rlp_other_count (raw : Bytes) (n : Nat)
    (hc : rlpItemCount raw = .ok n) (h2 : n ≠ 2) (h17 : n ≠ 17) :
    NodeData.from_raw_rlp raw = .error (.InternalError "Unknown num_items") := by
  have hln : liftDec (Except.ok n) = (Except.ok n : Except Error Nat) := rfl
  simp only [NodeData.from_raw_rlp, hc, hln]

/-- C5: `from_raw_rlp` on a 2-item list decodes field 0 as a compact
path and returns a Leaf when the terminator flag is set, otherwise an
Extension whose field 1 must be exactly 32 bytes (failing otherwise);
on a 17-item list it returns a Branch whose slots decode from 32-byte
digests or empty bytes (failing on other slot lengths); and on any
other item count it returns a decoding error. -/
theorem c5_from_raw_rlp_shape :
    (∀ (raw v0 v1 : List Nat) (key : Nibbles),
      rlpItemCount raw = .ok 2 → rlpAtData raw 0 = .ok v0 →
      rlpAtData raw 1 = .ok v1 →
      Nibbles.from_encoded_path_with_terminator v0 = .ok (key, true) →
      NodeData.from_raw_rlp raw = .ok (.Leaf key v1)) ∧
    (∀ (raw v0 v1 : List Nat) (key : Nibbles),
      rlpItemCount raw = .ok 2 → rlpAtData raw 0 = .ok v0 →
      rlpAtData raw 1 = .ok v1 →
      Nibbles.from_encoded_path_with_terminator v0 = .ok (key, false) →
      v1.length = 32 →
      NodeData.from_raw_rlp raw = .ok (.Extension key v1)) ∧
    (∀ (raw v0 v1 : List Nat) (key : Nibbles),
      rlpItemCount raw = .ok 2 → rlpAtData raw 0 = .ok v0 →
      rlpAtData raw 1 = .ok v1 →
      Nibbles.from_encoded_path_with_terminator v0 = .ok (key, false) →
      v1.length ≠ 32 →
      ∃ e, NodeData.from_raw_rlp raw = .error e) ∧
    (∀ (raw : List Nat) (vs : List (List Nat)),
      rlpItemCount raw = .ok 17 → vs.length = 17 →
      (∀ i, i < 17 → rlpAtData raw i = .ok (vs.getD i [])) →
      (∀ v ∈ vs, v.length = 32 ∨ v.length = 0) →
      NodeData.from_raw_rlp raw =
        .ok (.Branch (vs.map fun v => if v.length = 32 then some v else none))) ∧
    (∀ (raw : List Nat) (vs : List (List Nat)) (i : Nat),
      rlpItemCount raw = .ok 17 → vs.length = 17 →
      (∀ j, j < 17 → rlpAtData raw j = .ok (vs.getD j [])) →
      i < 17 → (vs.getD i []).length ≠ 32 → (vs.getD i []).length ≠ 0 →
      ∃ e, NodeData.from_raw_rlp raw = .error e) ∧
    (∀ (raw : List Nat) (n : Nat),
      rlpItemCount raw = .ok n → n ≠ 2 → n ≠ 17 →
      ∃ e, NodeData.from_raw_rlp raw = .error e) := by
  refine ⟨?_, ?_, ?_, ?_, ?_, ?_⟩
  · intro raw v0 v1 key hc h0 h1 hk
    simpa using from_raw_rlp_two raw v0 v1 key true hc h0 h1 hk
  · intro raw v0 v1 key hc h0 h1 hk h32
    simpa [h32] using from_raw_rlp_two raw v0 v1 key false hc h0 h1 hk
  · intro raw v0 v1 key hc h0 h1 hk hne
    exact ⟨.InternalError "invalid hash length in Extension",
      by simpa [hne] using from_raw_rlp_two raw v0 v1 key false hc h0 h1 hk⟩
  · intro raw vs hc hlen hv hall
    exact from_raw_rlp_seventeen raw vs hc hlen hv hall
  · intro raw vs i hc hlen hv hi h32 h0
    exact ⟨.InternalError "invalid hash length in Extension",
      from_raw_rlp_seventeen_badslot raw vs i hc hlen hv hi h32 h0⟩
  · intro raw n hc h2 h17
    exact ⟨.InternalError "Unknown num_items",
      from_raw_rlp_other_count raw n hc h2 h17⟩

/-- Witness for C5: each shape case evaluated at concrete bytes —
`0xc2 20 05` (leaf with empty path), the repository's extension vector,
`0xc2 00 05` (extension with a 1-byte child digest), `0xd1 80…80`
(branch of seventeen empty slots), `0xd1 05 80…80` (branch with a
1-byte slot), and `0xc0` (empty list). -/
theorem c5_from_raw_rlp_shape_witness :
    NodeData.from_raw_rlp [0xc2, 0x20, 0x05] = .ok (.Leaf [] [0x05]) ∧
    NodeData.from_raw_rlp
      [0xe5, 0x83, 0x16, 0x5a, 0x7b, 0xa0, 0xe4, 0x6d, 0xb0, 0x42, 0x6b, 0x9d,
       0x34, 0xc7, 0xb2, 0xdf, 0x7b, 0xaf, 0x04, 0x80, 0x77, 0x79, 0x46, 0xe6,
       0xb5, 0xb7, 0x4a, 0x05, 0x72, 0x59, 0x2b, 0x02, 0x29, 0xa4, 0xed, 0xae,
       0xd9, 0x44] =
      .ok (.Extension [6, 5, 10, 7, 11]
        [0xe4, 0x6d, 0xb0, 0x42, 0x6b, 0x9d, 0x34, 0xc7, 0xb2, 0xdf, 0x7b, 0xaf,
         0x04, 0x80, 0x77, 0x79, 0x46, 0xe6, 0xb5, 0xb7, 0x4a, 0x05, 0x72, 0x59,
         0x2b, 0x02, 0x29, 0xa4, 0xed, 0xae, 0xd9, 0x44]) ∧
    (∃ e, NodeData.from_raw_rlp [0xc2, 0x00, 0x05] = .error e) ∧
    NodeData.from_raw_rlp
      [0xd1, 0x80, 0x80, 0x80, 0x80, 0x80, 0x80, 0x80, 0x80, 0x80, 0x80, 0x80,
       0x80, 0x80, 0x80, 0x80, 0x80, 0x80] =
      .ok (.Branch ((List.replicate 17 ([] : List Nat)).map fun v =>
        if v.length = 32 then some v else none)) ∧
    (∃ e, NodeData.from_raw_rlp
      [0xd1, 0x05, 0x80, 0x80, 0x80, 0x80, 0x80, 0x80, 0x80, 0x80, 0x80, 0x80,
       0x80, 0x80, 0x80, 0x80, 0x80, 0x80] = .error e) ∧
    (∃ e, NodeData.from_raw_rlp [0xc0] = .error e) :=
  ⟨c5_from_raw_rlp_shape.1 [0xc2, 0x20, 0x05] [0x20] [0x05] [] (by decide)
      (by decide) (by decide) (by decide),
    c5_from_raw_rlp_shape.2.1
      [0xe5, 0x83, 0x16, 0x5a, 0x7b, 0xa0, 0xe4, 0x6d, 0xb0, 0x42, 0x6b, 0x9d,
       0x34, 0xc7, 0xb2, 0xdf, 0x7b, 0xaf, 0x04, 0x80, 0x77, 0x79, 0x46, 0xe6,
       0xb5, 0xb7, 0x4a, 0x05, 0x72, 0x59, 0x2b, 0x02, 0x29, 0xa4, 0xed, 0xae,
       0xd9, 0x44]
      [0x16, 0x5a, 0x7b]
      [0xe4, 0x6d, 0xb0, 0x42, 0x6b, 0x9d, 0x34, 0xc7, 0xb2, 0xdf, 0x7b, 0xaf,
       0x04, 0x80, 0x77, 0x79, 0x46, 0xe6, 0xb5, 0xb7, 0x4a, 0x05, 0x72, 0x59,
       0x2b, 0x02, 0x29, 0xa4, 0xed, 0xae, 0xd9, 0x44]
      [6, 5, 10, 7, 11] (by decide) (by decide) (by decide) (by decide)
      (by decide),
    c5_from_raw_rlp_shape.2.2.1 [0xc2, 0x00, 0x05] [0x00] [0x05] [] (by decide)
      (by decide) (by decide) (by decide) (by decide),
    c5_from_raw_rlp_shape.2.2.2.1
      [0xd1, 0x80, 0x80, 0x80, 0x80, 0x80, 0x80, 0x80, 0x80, 0x80, 0x80, 0x80,
       0x80, 0x80, 0x80, 0x80, 0x80, 0x80]
      (List.replicate 17 ([] : List Nat)) (by decide) (by decide) (by decide)
      (by decide),
    c5_from_raw_rlp_shape.2.2.2.2.1
      [0xd1, 0x05, 0x80, 0x80, 0x80, 0x80, 0x80, 0x80, 0x80, 0x80, 0x80, 0x80,
       0x80, 0x80, 0x80, 0x80, 0x80, 0x80]
      ([0x05] :: List.replicate 16 ([] : List Nat)) 0 (by decide) (by decide)
      (by decide) (by decide) (by decide) (by decide),
    c5_from_raw_rlp_shape.2.2.2.2.2 [0xc0] 0 (by decide) (by decide) (by decide)⟩

/-- C6: the shape failures — wrong item count, wrong digest length in
a branch slot, hash length ≠ 32 in an extension target — fail with the
library's invalid-node-shape errors, which `from_raw_rlp` returns to
the caller unmodified, and which are distinct from the internal-bug
error that `set_value_on_leaf` raises. -/
theorem c6_invalid_shape_error_kinds :
    (∀ (raw : List Nat) (n : Nat),
      rlpItemCount raw = .ok n → n ≠ 2 → n ≠ 17 →
      NodeData.from_raw_rlp raw = .error (.InternalError "Unknown num_items")) ∧
    (∀ (raw v0 v1 : List Nat) (key : Nibbles),
      rlpItemCount raw = .ok 2 → rlpAtData raw 0 = .ok v0 →
      rlpAtData raw 1 = .ok v1 →
      Nibbles.from_encoded_path_with_terminator v0 = .ok (key, false) →
      v1.length ≠ 32 →
      NodeData.from_raw_rlp raw =
        .error (.InternalError "invalid hash length in Extension")) ∧
    (∀ (raw : List Nat) (vs : List (List Nat)) (i : Nat),
      rlpItemCount raw = .ok 17 → vs.length = 17 →
      (∀ j, j < 17 → rlpAtData raw j = .ok (vs.getD j [])) →
      i < 17 → (vs.getD i []).length ≠ 32 → (vs.getD i []).length ≠ 0 →
      NodeData.from_raw_rlp raw =
        .error (.InternalError "invalid hash length in Extension")) ∧
    ((Error.InternalError "Unknown num_items" ≠
        Error.InternalError "set_value_on_leaf is only valid on leaf nodes") ∧
     (Error.InternalError "invalid hash length in Extension" ≠
        Error.InternalError "set_value_on_leaf is only valid on leaf nodes")) := by
  refine ⟨?_, ?_, ?_, by decide, by decide⟩
  · intro raw n hc h2 h17
    exact from_raw_rlp_other_count raw n hc h2 h17
  · intro raw v0 v1 key hc h0 h1 hk hne
    simpa [hne] using from_raw_rlp_two raw v0 v1 key false hc h0 h1 hk
  · intro raw vs i hc hlen hv hi h32 h0
    exact from_raw_rlp_seventeen_badslot raw vs i hc hlen hv hi h32 h0

/-- Witness for C6: the three shape failures at concrete bytes — the
empty list `0xc0` (item count 0), `0xc2 00 05` (extension whose child
digest has 1 byte), and `0xd1 05 80…80` (branch slot of 1 byte) — each
return the exact invalid-shape internal error. -/
theorem c6_invalid_shape_error_kinds_witness :
    NodeData.from_raw_rlp [0xc0] =
      .error (.InternalError "Unknown num_items") ∧
    NodeData.from_raw_rlp [0xc2, 0x00, 0x05] =
      .error (.InternalError "invalid hash length in Extension") ∧
    NodeData.from_raw_rlp
      [0xd1, 0x05, 0x80, 0x80, 0x80, 0x80, 0x80, 0x80, 0x80, 0x80, 0x80, 0x80,
       0x80, 0x80, 0x80, 0x80, 0x80, 0x80] =
      .error (.InternalError "invalid hash length in Extension") :=
  ⟨c6_invalid_shape_error_kinds.1 [0xc0] 0 (by decide) (by decide) (by decide),
    c6_invalid_shape_error_kinds.2.1 [0xc2, 0x00, 0x05] [0x00] [0x05] []
      (by decide) (by decide) (by decide) (by decide) (by decide),
    c6_invalid_shape_error_kinds.2.2.1
      [0xd1, 0x05, 0x80, 0x80, 0x80, 0x80, 0x80, 0x80, 0x80, 0x80, 0x80, 0x80,
       0x80, 0x80, 0x80, 0x80, 0x80, 0x80]
      ([0x05] :: List.replicate 16 ([] : List Nat)) 0 (by decide) (by decide)
      (by decide) (by decide) (by decide) (by decide)⟩
